import Mathlib

/-!
Verification of `advanced-vector/vector.h`.

A shallow embedding of the class templates `RawMemory<T>` and `Vector<T>`.

* A storage block is a list of slots; a slot is `none` while it is raw
  (uninitialised or destroyed) memory and `some x` while it holds a live
  object of value `x`.  Reading a raw slot yields no value.
* The element type `T` is a parameter: the container only sees it through
  `ElemTraits` (what a move leaves behind in its source, which relocation
  strategy `if constexpr` selects, and the value-initialised `T()`).
* Iterators and references into the array are modelled by their offset from
  `begin()` (`pos - data_.GetAddress()`).
* A failing copy constructor is modelled by a schedule `fail : Option Nat`:
  `none` never fails, `some k` lets `k` relocation copies succeed and makes
  the next one throw.
-/

namespace AdvancedVector

/-- Capabilities of the element type `T` that the container relies on. -/
structure ElemTraits (α : Type) where
  /-- State that a move construction or move assignment leaves in its source. -/
  moved : α → α
  /-- Value of `std::is_nothrow_move_constructible_v<T> || !std::is_copy_constructible_v<T>`. -/
  relocByMove : Bool
  /-- Value-initialised object `T()`. -/
  dflt : α

/-- Contents of a storage block: one slot per element, `none` for raw memory. -/
abbrev Block (α : Type) := List (Option α)

/-- Value read from slot `i` of a block (nothing when the slot is raw or out of range). -/
def rd {α : Type} (b : Block α) (i : Nat) : Option α := (b[i]?).join

/-- Placement `new (b + i) T(x)`: slot `i` becomes a live object of value `x`. -/
def construct_at {α : Type} (b : Block α) (i : Nat) (x : α) : Block α := b.set i (some x)

/-- Algorithm `std::destroy_n(b + first, n)`: the `n` slots from `first` on become raw. -/
def destroy_n {α : Type} : Nat → Nat → Block α → Block α
  | _, 0, b => b
  | first, n + 1, b => destroy_n (first + 1) n (b.set first none)

/-- Algorithm `std::uninitialized_value_construct_n(b + first, n)`. -/
def uninitialized_value_construct_n {α : Type} (t : ElemTraits α) : Nat → Nat → Block α → Block α
  | _, 0, b => b
  | first, n + 1, b => uninitialized_value_construct_n t (first + 1) n (b.set first (some t.dflt))

/-- Algorithm `std::uninitialized_move_n(src + s, n, dst + d)`: each destination slot is
move-constructed from its source slot, which is left in its moved-from state.
Returns the source block and the destination block. -/
def uninitialized_move_n {α : Type} (t : ElemTraits α) :
    Nat → Nat → Nat → Block α → Block α → Block α × Block α
  | 0, _, _, src, dst => (src, dst)
  | n + 1, s, d, src, dst =>
    uninitialized_move_n t n (s + 1) (d + 1)
      (src.set s ((rd src s).map t.moved)) (dst.set d (rd src s))

/-- Algorithm `std::uninitialized_copy_n(src + s, n, dst + d)` under the failure schedule
`fail`.  When a copy constructor throws, the objects this call has already constructed are
destroyed and the exception propagates (`Except.error` carries the destination block as it
is then). -/
def uninitialized_copy_n {α : Type} :
    Option Nat → Nat → Nat → Nat → Block α → Block α → Except (Block α) (Block α)
  | _, 0, _, _, _, dst => .ok dst
  | some 0, _ + 1, _, _, _, dst => .error dst
  | f, n + 1, s, d, src, dst =>
    match uninitialized_copy_n (f.map (· - 1)) n (s + 1) (d + 1) src (dst.set d (rd src s)) with
    | .ok r => .ok r
    | .error r => .error (r.set d none)

/-- Block carried by the result of `uninitialized_copy_n`, whichever way it ended. -/
def blockOf {α : Type} : Except (Block α) (Block α) → Block α
  | .ok b => b
  | .error b => b

/-- Single move assignment `b[d] = std::move(b[s])` inside one block. -/
def move_assign {α : Type} (t : ElemTraits α) (b : Block α) (s d : Nat) : Block α :=
  (b.set d (rd b s)).set s ((rd b s).map t.moved)

/-- Algorithm `std::move_backward(b + first, b + last, b + d_last)` with `n = last - first`:
`while (first != last) *(--d_last) = std::move(*(--last));`. -/
def move_backward {α : Type} (t : ElemTraits α) : Nat → Nat → Nat → Block α → Block α
  | 0, _, _, b => b
  | n + 1, last, d_last, b =>
    move_backward t n (last - 1) (d_last - 1) (move_assign t b (last - 1) (d_last - 1))

/-- Algorithm `std::move(b + first, b + last, b + d_first)` with `n = last - first`:
`while (first != last) *d_first++ = std::move(*first++);`. -/
def std_move {α : Type} (t : ElemTraits α) : Nat → Nat → Nat → Block α → Block α
  | 0, _, _, b => b
  | n + 1, first, d_first, b =>
    std_move t n (first + 1) (d_first + 1) (move_assign t b first d_first)

/-- Loop `for (i = first; i != first + n; ++i) dst[i] = src[i];` of copy assignments. -/
def copy_assign_loop {α : Type} : Nat → Nat → Block α → Block α → Block α
  | 0, _, _, dst => dst
  | n + 1, i, src, dst => copy_assign_loop n (i + 1) src (dst.set i (rd src i))

/-- Class `RawMemory<T>`: a block and the recorded capacity. -/
structure RawMemory (α : Type) where
  buffer_ : Block α
  capacity_ : Nat
  deriving DecidableEq

/-- Function `RawMemory::Allocate(n)`: raw memory for `n` elements (`nullptr` for `n = 0`). -/
def RawMemory.Allocate {α : Type} (n : Nat) : Block α := List.replicate n none

/-- Constructor `RawMemory() = default`. -/
def RawMemory.empty {α : Type} : RawMemory α := ⟨[], 0⟩

/-- Constructor `RawMemory(size_t capacity)`. -/
def RawMemory.ofCapacity {α : Type} (capacity : Nat) : RawMemory α :=
  ⟨RawMemory.Allocate capacity, capacity⟩

/-- Method `RawMemory::Swap`: returns the new `*this` and the new `other`. -/
def RawMemory.Swap {α : Type} (self other : RawMemory α) : RawMemory α × RawMemory α :=
  (⟨other.buffer_, other.capacity_⟩, ⟨self.buffer_, self.capacity_⟩)

/-- Class `Vector<T>`. -/
structure Vector (α : Type) where
  data_ : RawMemory α
  size_ : Nat
  deriving DecidableEq

/-- Result of a member function that may throw.  `ret` is the returned value (`none` when an
exception propagates), `self` is `*this` afterwards and `new_data` is the local block of the
growth path as it is when the call ends, just before its destructor releases it. -/
structure Outcome (α ρ : Type) where
  ret : Option ρ
  self : Vector α
  new_data : Option (RawMemory α)

namespace Vector

variable {α : Type}

/-- Constructor `Vector() = default`. -/
def empty : Vector α := ⟨RawMemory.empty, 0⟩

/-- Method `Size()`. -/
def Size (v : Vector α) : Nat := v.size_

/-- Method `Capacity()`. -/
def Capacity (v : Vector α) : Nat := v.data_.capacity_

/-- Method `Swap(Vector& other)`: returns the new `*this` and the new `other`. -/
def Swap (self other : Vector α) : Vector α × Vector α :=
  let d := RawMemory.Swap self.data_ other.data_
  (⟨d.1, other.size_⟩, ⟨d.2, self.size_⟩)

/-- Copy constructor `Vector(const Vector& other)` (the copies are taken not to throw). -/
def copyCtor (other : Vector α) : Vector α :=
  let data := (RawMemory.ofCapacity other.size_ : RawMemory α)
  ⟨⟨blockOf (uninitialized_copy_n none other.size_ 0 0 other.data_.buffer_ data.buffer_),
    data.capacity_⟩, other.size_⟩

/-- The `if constexpr` relocation block that `Reserve`, `PushBack` and `EmplaceBack` share:
`uninitialized_move_n(data_, size_, new_data)` or `uninitialized_copy_n(...)`.
Returns the old and the new block, or the new block when a copy threw. -/
def relocate_n (t : ElemTraits α) (fail : Option Nat) (n : Nat) (old new_data : Block α) :
    Except (Block α) (Block α × Block α) :=
  if t.relocByMove then
    .ok (uninitialized_move_n t n 0 0 old new_data)
  else
    match uninitialized_copy_n fail n 0 0 old new_data with
    | .ok nb => .ok (old, nb)
    | .error nb => .error nb

/-- Method `Reserve(new_capacity)`. -/
def Reserve (t : ElemTraits α) (fail : Option Nat) (v : Vector α) (new_capacity : Nat) :
    Outcome α Unit :=
  if new_capacity ≤ v.data_.capacity_ then
    ⟨some (), v, none⟩
  else
    let new_data := (RawMemory.ofCapacity new_capacity : RawMemory α)
    match relocate_n t fail v.size_ v.data_.buffer_ new_data.buffer_ with
    | .error nb => ⟨none, v, some ⟨nb, new_data.capacity_⟩⟩
    | .ok (ob, nb) =>
      let ob := destroy_n 0 v.size_ ob
      let d := RawMemory.Swap ⟨ob, v.data_.capacity_⟩ ⟨nb, new_data.capacity_⟩
      ⟨some (), ⟨⟨d.1.buffer_, new_capacity⟩, v.size_⟩, some d.2⟩

/-- Method `Resize(new_size)`. -/
def Resize (t : ElemTraits α) (fail : Option Nat) (v : Vector α) (new_size : Nat) :
    Outcome α Unit :=
  if new_size = v.size_ then
    ⟨some (), v, none⟩
  else if new_size > v.size_ then
    let r := Reserve t fail v new_size
    match r.ret with
    | none => r
    | some _ =>
      let w := r.self
      ⟨some (),
        ⟨⟨uninitialized_value_construct_n t w.size_ (new_size - w.size_) w.data_.buffer_,
          w.data_.capacity_⟩, new_size⟩,
        r.new_data⟩
  else
    ⟨some (),
      ⟨⟨destroy_n new_size (v.size_ - new_size) v.data_.buffer_, v.data_.capacity_⟩, new_size⟩,
      none⟩

/-- Method `PushBack(value)`; `value` is the value the new element is constructed with. -/
def PushBack (t : ElemTraits α) (fail : Option Nat) (v : Vector α) (value : α) :
    Outcome α Unit :=
  if v.size_ = v.Capacity then
    let new_size := if v.size_ = 0 then 1 else v.size_ * 2
    let new_data := (RawMemory.ofCapacity new_size : RawMemory α)
    let nb := construct_at new_data.buffer_ v.size_ value
    match relocate_n t fail v.size_ v.data_.buffer_ nb with
    | .error nb => ⟨none, v, some ⟨nb, new_data.capacity_⟩⟩
    | .ok (ob, nb) =>
      let d := RawMemory.Swap ⟨ob, v.data_.capacity_⟩ ⟨nb, new_data.capacity_⟩
      let released : RawMemory α := ⟨destroy_n 0 v.size_ d.2.buffer_, d.2.capacity_⟩
      ⟨some (), ⟨⟨d.1.buffer_, new_size⟩, v.size_ + 1⟩, some released⟩
  else
    ⟨some (), ⟨⟨construct_at v.data_.buffer_ v.size_ value, v.data_.capacity_⟩, v.size_ + 1⟩,
      none⟩

/-- Method `PopBack()`. -/
def PopBack (v : Vector α) : Vector α :=
  ⟨⟨destroy_n (v.size_ - 1) 1 v.data_.buffer_, v.data_.capacity_⟩, v.size_ - 1⟩

/-- Method `EmplaceBack(args...)`; `value` is the value of `T(args...)`.  The returned
reference is modelled by the index of the element it refers to. -/
def EmplaceBack (t : ElemTraits α) (fail : Option Nat) (v : Vector α) (value : α) :
    Outcome α Nat :=
  if v.size_ = v.Capacity then
    let new_size := if v.size_ = 0 then 1 else v.size_ * 2
    let new_data := (RawMemory.ofCapacity new_size : RawMemory α)
    let iter := v.size_
    let nb := construct_at new_data.buffer_ iter value
    match relocate_n t fail v.size_ v.data_.buffer_ nb with
    | .error nb => ⟨none, v, some ⟨nb, new_data.capacity_⟩⟩
    | .ok (ob, nb) =>
      let ob := destroy_n 0 v.size_ ob
      let d := RawMemory.Swap ⟨ob, v.data_.capacity_⟩ ⟨nb, new_data.capacity_⟩
      ⟨some iter, ⟨⟨d.1.buffer_, new_size⟩, v.size_ + 1⟩, some d.2⟩
  else
    let iter := v.size_
    ⟨some iter, ⟨⟨construct_at v.data_.buffer_ iter value, v.data_.capacity_⟩, v.size_ + 1⟩,
      none⟩

/-- Method `Emplace(pos, args...)` with `index = pos - data_.GetAddress()`; `value` is the
value of `T(args...)`.  The returned iterator is modelled by its offset from `begin()`. -/
def Emplace (t : ElemTraits α) (fail : Option Nat) (v : Vector α) (index : Nat) (value : α) :
    Outcome α Nat :=
  if v.size_ < v.Capacity then
    if v.size_ = 0 then
      ⟨some 0, ⟨⟨construct_at v.data_.buffer_ 0 value, v.data_.capacity_⟩, v.size_ + 1⟩, none⟩
    else
      -- new (data_ + size_) T(std::move(data_[size_ - 1]))
      let b := (v.data_.buffer_.set v.size_ (rd v.data_.buffer_ (v.size_ - 1))).set
        (v.size_ - 1) ((rd v.data_.buffer_ (v.size_ - 1)).map t.moved)
      let b := move_backward t (v.size_ - index) v.size_ (v.size_ + 1) b
      let b := destroy_n index 1 b
      ⟨some index, ⟨⟨construct_at b index value, v.data_.capacity_⟩, v.size_ + 1⟩, none⟩
  else
    let new_size := if v.size_ = 0 then 1 else v.size_ * 2
    let new_data := (RawMemory.ofCapacity new_size : RawMemory α)
    let nb := construct_at new_data.buffer_ index value
    let finish (ob nb : Block α) : Outcome α Nat :=
      let ob := destroy_n 0 v.size_ ob
      let d := RawMemory.Swap ⟨ob, v.data_.capacity_⟩ ⟨nb, new_data.capacity_⟩
      ⟨some index, ⟨⟨d.1.buffer_, new_size⟩, v.size_ + 1⟩, some d.2⟩
    if t.relocByMove then
      let r := uninitialized_move_n t index 0 0 v.data_.buffer_ nb
      let r := uninitialized_move_n t (v.size_ - index) index (index + 1) r.1 r.2
      finish r.1 r.2
    else
      match uninitialized_copy_n fail index 0 0 v.data_.buffer_ nb with
      | .error nb => ⟨none, v, some ⟨destroy_n index 1 nb, new_data.capacity_⟩⟩
      | .ok nb =>
        match uninitialized_copy_n (fail.map (· - index)) (v.size_ - index) index (index + 1)
            v.data_.buffer_ nb with
        | .error nb => ⟨none, v, some ⟨destroy_n index 1 nb, new_data.capacity_⟩⟩
        | .ok nb => finish v.data_.buffer_ nb

/-- Methods `Insert(pos, const T&)` and `Insert(pos, T&&)`: both forward to `Emplace`. -/
def Insert (t : ElemTraits α) (fail : Option Nat) (v : Vector α) (index : Nat) (value : α) :
    Outcome α Nat :=
  Emplace t fail v index value

/-- Method `Erase(pos)` with `index = pos - data_.GetAddress()`.  Returns the offset of the
returned iterator and `*this` afterwards. -/
def Erase (t : ElemTraits α) (v : Vector α) (index : Nat) : Nat × Vector α :=
  if v.size_ = 0 then
    (v.size_, v)
  else if v.size_ = 1 then
    let w : Vector α := ⟨⟨destroy_n (v.size_ - 1) 1 v.data_.buffer_, v.data_.capacity_⟩, v.size_ - 1⟩
    (w.size_, w)
  else
    let b := std_move t (v.size_ - (index + 1)) (index + 1) index v.data_.buffer_
    let b := destroy_n (v.size_ - 1) 1 b
    (index, ⟨⟨b, v.data_.capacity_⟩, v.size_ - 1⟩)

/-- Copy assignment `self = rhs` for two distinct objects (`this != &rhs`). -/
def copyAssign (self rhs : Vector α) : Vector α :=
  if rhs.size_ > self.data_.capacity_ then
    let rhs_copy := copyCtor rhs
    (Swap self rhs_copy).1
  else
    let b :=
      if rhs.size_ > self.size_ then
        let b := blockOf (uninitialized_copy_n none (rhs.size_ - self.size_) 0 self.size_
          rhs.data_.buffer_ self.data_.buffer_)
        copy_assign_loop (rhs.size_ - self.size_) 0 rhs.data_.buffer_ b
      else
        copy_assign_loop rhs.size_ 0 rhs.data_.buffer_ self.data_.buffer_
    let b := if self.size_ > rhs.size_ then destroy_n rhs.size_ (self.size_ - rhs.size_) b else b
    ⟨⟨b, self.data_.capacity_⟩, rhs.size_⟩

/-- Move assignment `self = std::move(rhs)` for two distinct objects (`this != &rhs`):
returns the new `*this` and the state left in `rhs`. -/
def moveAssign (self rhs : Vector α) : Vector α × Vector α :=
  Swap self rhs

/-- Live elements as seen through `operator[]`: the slots at indices `[0, size_)`. -/
def elems (v : Vector α) : List (Option α) := v.data_.buffer_.take v.size_

/-- Representation invariant: the block has `capacity_` slots and `size_ ≤ capacity_`. -/
def Inv (v : Vector α) : Prop :=
  v.data_.buffer_.length = v.data_.capacity_ ∧ v.size_ ≤ v.data_.capacity_

/-- The array holds exactly the live values `xs`, in order. -/
def Holds (v : Vector α) (xs : List α) : Prop :=
  Inv v ∧ v.size_ = xs.length ∧ elems v = xs.map some

/-- A vector with capacity `cap` holding `xs`, its spare slots raw. -/
def ofList (cap : Nat) (xs : List α) : Vector α :=
  ⟨⟨xs.map some ++ List.replicate (cap - xs.length) none, cap⟩, xs.length⟩

end Vector

/-- Element type whose moves copy (trivially copyable, such as `int`). -/
def intTraits : ElemTraits Nat := ⟨id, true, 0⟩

/-- Element type that is copyable and whose move constructor may throw, so that relocation
copies; a copy leaves the value unchanged. -/
def copyTraits : ElemTraits Nat := ⟨id, false, 0⟩

/-- Element type whose move leaves the source empty: an owning handle (`0` is the null
handle), as with `std::unique_ptr` or a string that leaves an empty string behind. -/
def handleTraits : ElemTraits Nat := ⟨fun _ => 0, true, 0⟩

/-- One step of a client program that only appends and removes at the end. -/
inductive Op (α : Type) where
  | push (value : α)
  | pop

/-- Effect of one step on the array (`PushBack` is run without copy failures). -/
def Op.apply {α : Type} (t : ElemTraits α) (v : Vector α) : Op α → Vector α
  | .push value => (Vector.PushBack t none v value).self
  | .pop => Vector.PopBack v

/-- Effect of one step on the reference list: append, or drop the last value. -/
def Op.model {α : Type} (xs : List α) : Op α → List α
  | .push value => xs ++ [value]
  | .pop => xs.dropLast

/-- Runs a program on an initially empty (default-constructed) array. -/
def run {α : Type} (t : ElemTraits α) (ops : List (Op α)) : Vector α :=
  ops.foldl (Op.apply t) Vector.empty

/-- Runs a program on the reference list, starting from the empty list. -/
def model {α : Type} (ops : List (Op α)) : List α :=
  ops.foldl Op.model []

/-- Caller contract of `PopBack`: whenever step `k` is a `pop`, the array reached by the
steps before it is not empty. -/
def PopGuarded {α : Type} (t : ElemTraits α) (ops : List (Op α)) : Prop :=
  ∀ k, ops[k]? = some Op.pop → 0 < (run t (ops.take k)).size_

/-- Pushes the values `xs` one after the other into a default-constructed array. -/
def pushAll {α : Type} (t : ElemTraits α) (xs : List α) : Vector α :=
  run t (xs.map Op.push)

/-- The values `xs` with the last one replaced by its moved-from state. -/
def movedLast {α : Type} (t : ElemTraits α) (xs : List α) : List α :=
  xs.dropLast ++ (xs.getLast?.map t.moved).toList

/-- The list `xs` with `x` inserted before index `i`. -/
def insertAt {α : Type} (xs : List α) (i : Nat) (x : α) : List α :=
  xs.take i ++ [x] ++ xs.drop i

/-- Move constructor `RawMemory(RawMemory&& other)`: `std::move` applied to a raw pointer
and to a `size_t` copies them.  Returns the new block and `other` as it is afterwards. -/
def RawMemory.moveCtor {α : Type} (other : RawMemory α) : RawMemory α × RawMemory α :=
  (⟨other.buffer_, other.capacity_⟩, other)

/-- Move assignment `RawMemory::operator=(RawMemory&& rhs)`: `buffer_` and `capacity_` are
overwritten by those of `rhs`.  Returns `*this` and `rhs` as they are afterwards. -/
def RawMemory.moveAssign {α : Type} (_self rhs : RawMemory α) : RawMemory α × RawMemory α :=
  (⟨rhs.buffer_, rhs.capacity_⟩, rhs)

/-- A block is empty when it holds no buffer (`buffer_ == nullptr`) and `capacity_ == 0`. -/
def RawMemory.IsEmpty {α : Type} (m : RawMemory α) : Prop :=
  m.buffer_ = [] ∧ m.capacity_ = 0

/-- Constructor `Vector(size_t size)`. -/
def Vector.sized {α : Type} (t : ElemTraits α) (size : Nat) : Vector α :=
  let data := (RawMemory.ofCapacity size : RawMemory α)
  ⟨⟨uninitialized_value_construct_n t 0 size data.buffer_, data.capacity_⟩, size⟩

/-- Move constructor `Vector(Vector&& other)`: `data_(other.size_)` and the default
`size_ = 0`, then `Swap(other)`.  Returns the new object and `other` as it is afterwards. -/
def Vector.moveCtor {α : Type} (other : Vector α) : Vector α × Vector α :=
  let self : Vector α := ⟨RawMemory.ofCapacity other.size_, 0⟩
  Vector.Swap self other

/-- `std::move_backward` as in `move_backward`, under a schedule for throwing move
assignments: `none` never throws, `some k` lets `k` move assignments succeed and makes the
next one throw, leaving its two operands as they are.  `Except.error` carries the block at
the moment of the throw. -/
def move_backward_sched {α : Type} (t : ElemTraits α) :
    Option Nat → Nat → Nat → Nat → Block α → Except (Block α) (Block α)
  | _, 0, _, _, b => .ok b
  | some 0, _ + 1, _, _, b => .error b
  | f, n + 1, last, d_last, b =>
    move_backward_sched t (f.map (· - 1)) n (last - 1) (d_last - 1)
      (move_assign t b (last - 1) (d_last - 1))

/-- The branch `size_ < Capacity()` of `Emplace`, with its `try` / `catch` around
`std::move_backward`: when a move assignment throws (schedule `mfail`), the handler runs
`std::destroy_n(data_ + size_, 1)` and rethrows, `size_` not yet incremented. -/
def Vector.EmplaceSpare {α : Type} (t : ElemTraits α) (mfail : Option Nat) (v : Vector α)
    (index : Nat) (value : α) : Outcome α Nat :=
  if v.size_ = 0 then
    ⟨some 0, ⟨⟨construct_at v.data_.buffer_ 0 value, v.data_.capacity_⟩, v.size_ + 1⟩, none⟩
  else
    let b := (v.data_.buffer_.set v.size_ (rd v.data_.buffer_ (v.size_ - 1))).set
      (v.size_ - 1) ((rd v.data_.buffer_ (v.size_ - 1)).map t.moved)
    match move_backward_sched t mfail (v.size_ - index) v.size_ (v.size_ + 1) b with
    | .error b => ⟨none, ⟨⟨destroy_n v.size_ 1 b, v.data_.capacity_⟩, v.size_⟩, none⟩
    | .ok b =>
      let b := destroy_n index 1 b
      ⟨some index, ⟨⟨construct_at b index value, v.data_.capacity_⟩, v.size_ + 1⟩, none⟩

/-- Calls of `RawMemory::operator[]` made by `Vector::operator[](index)`, each as the pair
of the index passed and the `capacity_` of the block indexed (the debug assertion is
`index < capacity_`). -/
def Vector.at_accesses {α : Type} (v : Vector α) (index : Nat) : List (Nat × Nat) :=
  [(index, v.data_.capacity_)]

/-- Calls of `RawMemory::operator[]` made by copy assignment: `rhs.data_[i]` in the two
assignment loops of the capacity-reuse branch. -/
def Vector.copyAssign_accesses {α : Type} (self rhs : Vector α) : List (Nat × Nat) :=
  if rhs.size_ > self.data_.capacity_ then []
  else if rhs.size_ > self.size_ then
    (List.range (rhs.size_ - self.size_)).map fun i => (i, rhs.data_.capacity_)
  else
    (List.range rhs.size_).map fun i => (i, rhs.data_.capacity_)

/-- Calls of `RawMemory::operator[]` made by `Emplace`: `&data_[index]` in the return
statement of the growth branch, on the block swapped in. -/
def Vector.Emplace_accesses {α : Type} (t : ElemTraits α) (v : Vector α) (index : Nat)
    (value : α) : List (Nat × Nat) :=
  if v.size_ < v.Capacity then []
  else [(index, (Vector.Emplace t none v index value).self.data_.capacity_)]

/-- Calls of `RawMemory::operator[]` made by `Erase`: `&data_[index]` in the return
statement of the branch for two or more elements. -/
def Vector.Erase_accesses {α : Type} (t : ElemTraits α) (v : Vector α) (index : Nat) :
    List (Nat × Nat) :=
  if v.size_ = 0 then []
  else if v.size_ = 1 then []
  else [(index, (Vector.Erase t v index).2.data_.capacity_)]

/-! ## Slot-wise behaviour of the memory algorithms -/

theorem some_rd {α : Type} (b : Block α) (i : Nat) (h : i < b.length) :
    some (rd b i) = b[i]? := by
  simp [rd, List.getElem?_eq_getElem h]

/-- One step of a loop that fills the slots `[d, d + n + 1)` with the same value. -/
theorem fill_step {β : Type} (b : List β) (d n j : Nat) (x : β) :
    (if d + 1 ≤ j ∧ j < d + 1 + n ∧ j < b.length then some x
      else if d = j then (if d < b.length then some x else none) else b[j]?) =
    if d ≤ j ∧ j < d + (n + 1) ∧ j < b.length then some x else b[j]? := by
  by_cases h1 : d + 1 ≤ j ∧ j < d + 1 + n ∧ j < b.length
  · have h2 : d ≤ j ∧ j < d + (n + 1) ∧ j < b.length := by omega
    rw [if_pos h1, if_pos h2]
  · rw [if_neg h1]
    by_cases h3 : d = j
    · subst h3
      by_cases h4 : d < b.length
      · have h2 : d ≤ d ∧ d < d + (n + 1) ∧ d < b.length := by omega
        simp [h4, h2]
      · have h2 : ¬ (d ≤ d ∧ d < d + (n + 1) ∧ d < b.length) := by omega
        simp [h4, h2, List.getElem?_eq_none (Nat.le_of_not_lt h4)]
    · have h2 : ¬ (d ≤ j ∧ j < d + (n + 1) ∧ j < b.length) := by omega
      simp [h3, h2]

@[simp] theorem destroy_n_length {α : Type} (first n : Nat) (b : Block α) :
    (destroy_n first n b).length = b.length := by
  induction n generalizing first b with
  | zero => simp [destroy_n]
  | succ n ih => simp [destroy_n, ih]

theorem destroy_n_getElem? {α : Type} (first n : Nat) (b : Block α) (j : Nat) :
    (destroy_n first n b)[j]? =
      if first ≤ j ∧ j < first + n ∧ j < b.length then some none else b[j]? := by
  induction n generalizing first b with
  | zero =>
    have h2 : ¬ (first ≤ j ∧ j < first ∧ j < b.length) := by omega
    simp [destroy_n, h2]
  | succ n ih =>
    simp only [destroy_n, ih, List.getElem?_set, List.length_set]
    exact fill_step b first n j _

@[simp] theorem uninitialized_value_construct_n_length {α : Type} (t : ElemTraits α)
    (first n : Nat) (b : Block α) :
    (uninitialized_value_construct_n t first n b).length = b.length := by
  induction n generalizing first b with
  | zero => simp [uninitialized_value_construct_n]
  | succ n ih => simp [uninitialized_value_construct_n, ih]

theorem uninitialized_value_construct_n_getElem? {α : Type} (t : ElemTraits α)
    (first n : Nat) (b : Block α) (j : Nat) :
    (uninitialized_value_construct_n t first n b)[j]? =
      if first ≤ j ∧ j < first + n ∧ j < b.length then some (some t.dflt) else b[j]? := by
  induction n generalizing first b with
  | zero =>
    have h2 : ¬ (first ≤ j ∧ j < first ∧ j < b.length) := by omega
    simp [uninitialized_value_construct_n, h2]
  | succ n ih =>
    simp only [uninitialized_value_construct_n, ih, List.getElem?_set, List.length_set]
    exact fill_step b first n j _

@[simp] theorem uninitialized_move_n_length {α : Type} (t : ElemTraits α)
    (n s d : Nat) (src dst : Block α) :
    (uninitialized_move_n t n s d src dst).2.length = dst.length := by
  induction n generalizing s d src dst with
  | zero => simp [uninitialized_move_n]
  | succ n ih => simp [uninitialized_move_n, ih]

@[simp] theorem uninitialized_move_n_src_length {α : Type} (t : ElemTraits α)
    (n s d : Nat) (src dst : Block α) :
    (uninitialized_move_n t n s d src dst).1.length = src.length := by
  induction n generalizing s d src dst with
  | zero => simp [uninitialized_move_n]
  | succ n ih => simp [uninitialized_move_n, ih]

theorem rd_set_of_lt {α : Type} (b : Block α) (i k : Nat) (x : Option α) (h : i < k) :
    rd (b.set i x) k = rd b k := by
  simp [rd, List.getElem?_set, Nat.ne_of_lt h]

theorem uninitialized_move_n_getElem? {α : Type} (t : ElemTraits α)
    (n s d : Nat) (src dst : Block α) (j : Nat) :
    (uninitialized_move_n t n s d src dst).2[j]? =
      if d ≤ j ∧ j < d + n ∧ j < dst.length then some (rd src (s + (j - d))) else dst[j]? := by
  induction n generalizing s d src dst with
  | zero =>
    have h2 : ¬ (d ≤ j ∧ j < d ∧ j < dst.length) := by omega
    simp [uninitialized_move_n, h2]
  | succ n ih =>
    simp only [uninitialized_move_n, ih, List.getElem?_set, List.length_set]
    by_cases h1 : d + 1 ≤ j ∧ j < d + 1 + n ∧ j < dst.length
    · have e : s + 1 + (j - (d + 1)) = s + (j - d) := by omega
      have h2 : d ≤ j ∧ j < d + (n + 1) ∧ j < dst.length := by omega
      rw [if_pos h1, if_pos h2, e, rd_set_of_lt _ _ _ _ (by omega)]
    · rw [if_neg h1]
      by_cases h3 : d = j
      · subst h3
        by_cases h4 : d < dst.length
        · have h2 : d ≤ d ∧ d < d + (n + 1) ∧ d < dst.length := by omega
          simp [h4, h2]
        · have h2 : ¬ (d ≤ d ∧ d < d + (n + 1) ∧ d < dst.length) := by omega
          simp [h4, h2, List.getElem?_eq_none (Nat.le_of_not_lt h4)]
      · have h2 : ¬ (d ≤ j ∧ j < d + (n + 1) ∧ j < dst.length) := by omega
        simp [h3, h2]

theorem uninitialized_copy_n_none {α : Type} (n s d : Nat) (src dst : Block α) :
    ∃ r, uninitialized_copy_n none n s d src dst = .ok r ∧ r.length = dst.length ∧
      ∀ j, r[j]? =
        if d ≤ j ∧ j < d + n ∧ j < dst.length then some (rd src (s + (j - d))) else dst[j]? := by
  induction n generalizing s d dst with
  | zero =>
    refine ⟨dst, by simp [uninitialized_copy_n], rfl, fun j => ?_⟩
    have h2 : ¬ (d ≤ j ∧ j < d ∧ j < dst.length) := by omega
    simp [h2]
  | succ n ih =>
    obtain ⟨r, hr, hl, hj⟩ := ih (s + 1) (d + 1) (dst.set d (rd src s))
    refine ⟨r, by simp [uninitialized_copy_n, hr], by simpa using hl, ?_⟩
    intro j
    rw [hj]
    simp only [List.getElem?_set, List.length_set]
    by_cases h1 : d + 1 ≤ j ∧ j < d + 1 + n ∧ j < dst.length
    · have e : s + 1 + (j - (d + 1)) = s + (j - d) := by omega
      have h2 : d ≤ j ∧ j < d + (n + 1) ∧ j < dst.length := by omega
      rw [if_pos h1, if_pos h2, e]
    · rw [if_neg h1]
      by_cases h3 : d = j
      · subst h3
        by_cases h4 : d < dst.length
        · have h2 : d ≤ d ∧ d < d + (n + 1) ∧ d < dst.length := by omega
          simp [h4, h2]
        · have h2 : ¬ (d ≤ d ∧ d < d + (n + 1) ∧ d < dst.length) := by omega
          simp [h4, h2, List.getElem?_eq_none (Nat.le_of_not_lt h4)]
      · have h2 : ¬ (d ≤ j ∧ j < d + (n + 1) ∧ j < dst.length) := by omega
        simp [h3, h2]

/-! ## Relocation without failures -/

theorem relocate_n_none {α : Type} (t : ElemTraits α) (n : Nat) (old nb : Block α) :
    ∃ ob r, Vector.relocate_n t none n old nb = .ok (ob, r) ∧ r.length = nb.length ∧
      ob.length = old.length ∧
      ∀ j, r[j]? = if j < n ∧ j < nb.length then some (rd old j) else nb[j]? := by
  unfold Vector.relocate_n
  cases t.relocByMove with
  | true =>
    refine ⟨_, _, by simp; rfl, by simp, by simp, fun j => ?_⟩
    rw [uninitialized_move_n_getElem?]
    by_cases h : j < n ∧ j < nb.length
    · have h2 : 0 ≤ j ∧ j < 0 + n ∧ j < nb.length := by omega
      simp [h, h2]
    · have h2 : ¬ (0 ≤ j ∧ j < 0 + n ∧ j < nb.length) := by omega
      simp [h, h2]
  | false =>
    obtain ⟨r, hr, hl, hj⟩ := uninitialized_copy_n_none n 0 0 old nb
    refine ⟨old, r, by simp [hr], hl, rfl, fun j => ?_⟩
    rw [hj]
    by_cases h : j < n ∧ j < nb.length
    · have h2 : 0 ≤ j ∧ j < 0 + n ∧ j < nb.length := by omega
      simp [h, h2]
    · have h2 : ¬ (0 ≤ j ∧ j < 0 + n ∧ j < nb.length) := by omega
      simp [h, h2]

/-! ## The abstraction `Holds` slot by slot -/

theorem holds_iff {α : Type} (v : Vector α) (xs : List α) :
    Vector.Holds v xs ↔
      Vector.Inv v ∧ v.size_ = xs.length ∧ ∀ j, j < xs.length → v.data_.buffer_[j]? = some xs[j]? := by
  unfold Vector.Holds Vector.elems
  constructor
  · rintro ⟨hi, hs, he⟩
    refine ⟨hi, hs, fun j hj => ?_⟩
    have := congrArg (fun l => l[j]?) he
    simp only [List.getElem?_take, List.getElem?_map] at this
    rw [if_pos (by omega)] at this
    rw [this, List.getElem?_eq_getElem hj]
    rfl
  · rintro ⟨hi, hs, he⟩
    refine ⟨hi, hs, List.ext_getElem? fun j => ?_⟩
    simp only [List.getElem?_take, List.getElem?_map]
    by_cases hj : j < xs.length
    · rw [if_pos (by omega), he j hj, List.getElem?_eq_getElem hj]
      rfl
    · rw [if_neg (by omega), List.getElem?_eq_none (Nat.le_of_not_lt hj)]
      rfl

/-! ## Appending and removing at the end -/

theorem growth_size (n : Nat) : (if n = 0 then 1 else n * 2) = max 1 (2 * n) := by
  by_cases h : n = 0
  · simp [h]
  · rw [if_neg h]; omega

theorem PushBack_capacity {α : Type} (t : ElemTraits α) (v : Vector α) (x : α) :
    (Vector.PushBack t none v x).ret = some () ∧
    (Vector.PushBack t none v x).self.size_ = v.size_ + 1 ∧
    (Vector.PushBack t none v x).self.Capacity =
      if v.size_ = v.Capacity then max 1 (2 * v.Capacity) else v.Capacity := by
  unfold Vector.PushBack
  by_cases h : v.size_ = v.Capacity
  · rw [if_pos h, if_pos h]
    obtain ⟨ob, r, hr, -, -, -⟩ := relocate_n_none t v.size_ v.data_.buffer_
      (construct_at (RawMemory.ofCapacity (if v.size_ = 0 then 1 else v.size_ * 2) :
        RawMemory α).buffer_ v.size_ x)
    simp only [hr]
    have h2 : v.data_.capacity_ = v.size_ := h.symm
    simp [Vector.Capacity, growth_size, h2]
  · rw [if_neg h, if_neg h]
    exact ⟨rfl, rfl, rfl⟩

theorem PushBack_holds {α : Type} (t : ElemTraits α) (v : Vector α) (xs : List α) (x : α)
    (h : Vector.Holds v xs) : Vector.Holds (Vector.PushBack t none v x).self (xs ++ [x]) := by
  rw [holds_iff] at h ⊢
  obtain ⟨⟨hlen, hle⟩, hs, he⟩ := h
  unfold Vector.PushBack
  by_cases hc : v.size_ = v.Capacity
  · rw [if_pos hc]
    obtain ⟨ob, r, hr, hl, -, hj⟩ := relocate_n_none t v.size_ v.data_.buffer_
      (construct_at (RawMemory.ofCapacity (if v.size_ = 0 then 1 else v.size_ * 2) :
        RawMemory α).buffer_ v.size_ x)
    simp only [hr]
    simp only [construct_at, RawMemory.ofCapacity, RawMemory.Allocate, List.length_set,
      List.length_replicate, growth_size] at hl hj
    simp only [RawMemory.Swap, growth_size, RawMemory.ofCapacity]
    refine ⟨⟨hl, by dsimp only; omega⟩, by simp [hs], fun j hjl => ?_⟩
    simp only [List.length_append, List.length_singleton] at hjl
    rw [hj, List.getElem?_set, List.length_replicate]
    by_cases h1 : j < xs.length
    · rw [if_pos (by omega), some_rd _ _ (by omega), he j h1, List.getElem?_append_left h1]
    · have h2 : j = xs.length := by omega
      subst h2
      rw [if_neg (by omega), if_pos hs, if_pos (by omega)]
      simp
  · rw [if_neg hc]
    have hlt : v.size_ < v.data_.capacity_ := lt_of_le_of_ne hle hc
    refine ⟨⟨by simp [construct_at, hlen], by dsimp only; omega⟩, by simp [hs], fun j hjl => ?_⟩
    simp only [List.length_append, List.length_singleton] at hjl
    simp only [construct_at, List.getElem?_set]
    by_cases h1 : j < xs.length
    · rw [if_neg (by omega), he j h1, List.getElem?_append_left h1]
    · have h2 : j = xs.length := by omega
      subst h2
      rw [if_pos hs, if_pos (by omega)]
      simp

theorem PopBack_holds {α : Type} (v : Vector α) (xs : List α)
    (h : Vector.Holds v xs) (hpos : 0 < v.size_) :
    Vector.Holds (Vector.PopBack v) xs.dropLast ∧
      (Vector.PopBack v).Capacity = v.Capacity := by
  rw [holds_iff] at h ⊢
  obtain ⟨⟨hlen, hle⟩, hs, he⟩ := h
  unfold Vector.PopBack
  refine ⟨⟨⟨by simp [hlen], by dsimp only; omega⟩, by simp [hs], fun j hjl => ?_⟩, rfl⟩
  simp only [List.length_dropLast] at hjl
  simp only [destroy_n_getElem?, List.getElem?_dropLast]
  rw [if_neg (by omega), if_pos hjl, he j (by omega)]

/-! ## Programs of `PushBack` and `PopBack` -/

theorem empty_holds {α : Type} : Vector.Holds (Vector.empty : Vector α) [] := by
  simp [Vector.Holds, Vector.Inv, Vector.empty, RawMemory.empty, Vector.elems]

theorem popGuarded_init {α : Type} (t : ElemTraits α) (ops : List (Op α)) (op : Op α)
    (h : PopGuarded t (ops ++ [op])) : PopGuarded t ops := by
  intro k hk
  have hlt : k < ops.length := by
    by_contra hc
    rw [List.getElem?_eq_none (Nat.le_of_not_lt hc)] at hk
    exact Option.noConfusion hk
  have := h k (by rw [List.getElem?_append_left hlt]; exact hk)
  rwa [List.take_append_of_le_length (Nat.le_of_lt hlt)] at this

theorem run_holds {α : Type} (t : ElemTraits α) (ops : List (Op α))
    (h : PopGuarded t ops) : Vector.Holds (run t ops) (model ops) := by
  induction ops using List.reverseRecOn with
  | nil => exact empty_holds
  | append_singleton ops op ih =>
    have ih := ih (popGuarded_init t ops op h)
    have e1 : run t (ops ++ [op]) = Op.apply t (run t ops) op := by
      simp [run, List.foldl_append]
    have e2 : model (ops ++ [op]) = Op.model (model ops) op := by
      simp [model, List.foldl_append]
    rw [e1, e2]
    cases op with
    | push x => exact PushBack_holds t _ _ x ih
    | pop =>
      have hpos := h ops.length (by simp)
      rw [List.take_left] at hpos
      exact (PopBack_holds _ _ ih hpos).1

theorem popGuarded_take {α : Type} (t : ElemTraits α) (ops : List (Op α)) (n : Nat)
    (h : PopGuarded t ops) : PopGuarded t (ops.take n) := by
  intro k hk
  rw [List.getElem?_take] at hk
  by_cases hkn : k < n
  · rw [if_pos hkn] at hk
    have := h k hk
    rwa [List.take_take, Nat.min_eq_left (Nat.le_of_lt hkn)]
  · rw [if_neg hkn] at hk
    exact Option.noConfusion hk

/-- C1: for every program of `PushBack` and `PopBack` steps run on an initially empty
array, with `PopBack` only ever called on a non-empty array, after every step (after the
first `n` steps, for every `n`) the array satisfies `size ≤ capacity` and its elements at
indices `[0, size)` are exactly the values pushed and not yet popped, in push order: the
list obtained by running the same steps as append / drop-last on a list. -/
theorem C1_push_pop_matches_list {α : Type} (t : ElemTraits α) (ops : List (Op α))
    (h : PopGuarded t ops) (n : Nat) :
    (run t (ops.take n)).size_ ≤ (run t (ops.take n)).Capacity ∧
    (run t (ops.take n)).size_ = (model (ops.take n)).length ∧
    (run t (ops.take n)).elems = (model (ops.take n)).map some := by
  have hh := run_holds t (ops.take n) (popGuarded_take t ops n h)
  exact ⟨hh.1.2, hh.2.1, hh.2.2⟩

/-- Witness for C1: push 1, 2, 3, pop, push 4 on an `int`-like element type. -/
theorem C1_push_pop_matches_list_witness :
    PopGuarded intTraits [Op.push 1, Op.push 2, Op.push 3, Op.pop, Op.push 4] ∧
    (run intTraits ([Op.push 1, Op.push 2, Op.push 3, Op.pop, Op.push 4].take 5)).elems
      = [some 1, some 2, some 4] := by
  have hg : PopGuarded intTraits [Op.push 1, Op.push 2, Op.push 3, Op.pop, Op.push 4] := by
    intro k hk
    match k, hk with
    | 0, hk => simp at hk
    | 1, hk => simp at hk
    | 2, hk => simp at hk
    | 3, _ => decide
    | 4, hk => simp at hk
    | k + 5, hk => simp at hk
  refine ⟨hg, ?_⟩
  have := (C1_push_pop_matches_list intTraits _ hg 5).2.2
  rw [this]
  rfl

/-! ## Moves inside one block -/

@[simp] theorem move_assign_length {α : Type} (t : ElemTraits α) (b : Block α) (s d : Nat) :
    (move_assign t b s d).length = b.length := by
  simp [move_assign]

@[simp] theorem std_move_length {α : Type} (t : ElemTraits α) (n first d_first : Nat)
    (b : Block α) : (std_move t n first d_first b).length = b.length := by
  induction n generalizing first d_first b with
  | zero => simp [std_move]
  | succ n ih => simp [std_move, ih]

@[simp] theorem move_backward_length {α : Type} (t : ElemTraits α) (n last d_last : Nat)
    (b : Block α) : (move_backward t n last d_last b).length = b.length := by
  induction n generalizing last d_last b with
  | zero => simp [move_backward]
  | succ n ih => simp [move_backward, ih]

/-- Shifting `[i + 1, i + 1 + n)` one slot to the left: every slot except the last source
slot `i + n` (left moved-from) is described by the original block. -/
theorem std_move_left_getElem? {α : Type} (t : ElemTraits α) (n i : Nat) (b : Block α)
    (h : i + n < b.length) (j : Nat) (hj : j ≠ i + n) :
    (std_move t n (i + 1) i b)[j]? = if i ≤ j ∧ j < i + n then b[j + 1]? else b[j]? := by
  induction n generalizing i b with
  | zero =>
    have h2 : ¬ (i ≤ j ∧ j < i + 0) := by omega
    simp only [std_move, if_neg h2]
  | succ n ih =>
    simp only [std_move]
    rw [ih (i + 1) _ (by simp; omega) (by omega)]
    simp only [move_assign, List.getElem?_set, List.length_set]
    by_cases h1 : i + 1 ≤ j ∧ j < i + 1 + n
    · have h2 : i ≤ j ∧ j < i + (n + 1) := by omega
      rw [if_pos h1, if_pos h2, if_neg (by omega), if_neg (by omega)]
    · rw [if_neg h1]
      by_cases h3 : j = i
      · subst h3
        have h2 : j ≤ j ∧ j < j + (n + 1) := by omega
        rw [if_neg (by omega), if_pos rfl, if_pos (by omega), if_pos h2,
          some_rd _ _ (by omega)]
      · have h2 : ¬ (i ≤ j ∧ j < i + (n + 1)) := by omega
        rw [if_neg (by omega), if_neg (by omega), if_neg h2]

/-! ## Erase -/

theorem Erase_holds {α : Type} (t : ElemTraits α) (v : Vector α) (xs : List α) (i : Nat)
    (h : Vector.Holds v xs) (hi : i < v.size_) :
    (Vector.Erase t v i).1 = i ∧ Vector.Holds (Vector.Erase t v i).2 (xs.eraseIdx i) ∧
      (Vector.Erase t v i).2.size_ = v.size_ - 1 ∧
      (Vector.Erase t v i).2.Capacity = v.Capacity := by
  rw [holds_iff] at h ⊢
  obtain ⟨⟨hlen, hle⟩, hs, he⟩ := h
  have hxl : (xs.eraseIdx i).length = xs.length - 1 := by
    rw [List.length_eraseIdx, if_pos (by omega)]
  unfold Vector.Erase
  rw [if_neg (by omega)]
  by_cases h1 : v.size_ = 1
  · rw [if_pos h1]
    have hi0 : i = 0 := by omega
    subst hi0
    refine ⟨by dsimp only; omega, ⟨⟨by simp [hlen], by dsimp only; omega⟩, by
      dsimp only; omega, fun j hjl => ?_⟩, rfl, rfl⟩
    omega
  · rw [if_neg h1]
    refine ⟨rfl, ⟨⟨by simp [hlen], by dsimp only; omega⟩, by dsimp only; omega,
      fun j hjl => ?_⟩, rfl, rfl⟩
    dsimp only
    rw [destroy_n_getElem?, if_neg (by omega),
      std_move_left_getElem? t _ i _ (by omega) j (by omega), List.getElem?_eraseIdx]
    by_cases h2 : j < i
    · rw [if_neg (by omega), if_pos h2, he j (by omega)]
    · rw [if_pos (by omega), if_neg h2, he (j + 1) (by omega)]

theorem Erase_empty {α : Type} (t : ElemTraits α) (v : Vector α) (i : Nat)
    (h : v.size_ = 0) : Vector.Erase t v i = (v.size_, v) := by
  simp [Vector.Erase, h]

/-- C3: for every array holding `xs` and every index `i < size`, `Erase(begin() + i)`
leaves the array holding `xs` with the element at index `i` removed (the rest in order),
with size decreased by one and capacity unchanged, and returns position `i`, which is the
end of the sequence when the erased element was the last one; `Erase` on an empty array
changes nothing and returns the end of the sequence. -/
theorem C3_erase_removes_index {α : Type} (t : ElemTraits α) (v : Vector α) (xs : List α)
    (i : Nat) (h : Vector.Holds v xs) :
    (i < v.size_ →
      (Vector.Erase t v i).1 = i ∧
      Vector.Holds (Vector.Erase t v i).2 (xs.eraseIdx i) ∧
      (Vector.Erase t v i).2.size_ = v.size_ - 1 ∧
      (Vector.Erase t v i).2.Capacity = v.Capacity ∧
      (i + 1 = v.size_ → (Vector.Erase t v i).1 = (Vector.Erase t v i).2.size_)) ∧
    (v.size_ = 0 → Vector.Erase t v i = (v.size_, v)) := by
  refine ⟨fun hi => ?_, Erase_empty t v i⟩
  obtain ⟨h1, h2, h3, h4⟩ := Erase_holds t v xs i h hi
  exact ⟨h1, h2, h3, h4, fun hl => by rw [h1, h3]; omega⟩

/-- Witness for C3: erasing index 0 of `[1, 99, 2, 3]` gives `[99, 2, 3]`. -/
theorem C3_erase_removes_index_witness :
    Vector.Holds (Vector.ofList 4 [1, 99, 2, 3]) [1, 99, 2, 3] ∧
    (Vector.Erase intTraits (Vector.ofList 4 [1, 99, 2, 3]) 0).2.elems
      = [some 99, some 2, some 3] := by
  have hh : Vector.Holds (Vector.ofList 4 [1, 99, 2, 3]) [1, 99, 2, 3] := by
    refine ⟨⟨by decide, by decide⟩, by decide, by decide⟩
  refine ⟨hh, ?_⟩
  have := ((C3_erase_removes_index intTraits _ _ 0 hh).1 (by decide)).2.1.2.2
  rw [this]
  rfl

/-! ## Positional insert, copy assignment and move assignment on concrete arrays -/

/-- C2: `Insert` of 99 at index 1 into `[1, 2, 3]` held with capacity 4 (spare capacity), for
an element type whose move empties its source.  The claim requires `[1, 99, 2, 3]`; the code
returns position 1 and size 4 but leaves `[1, 99, 2, 0]`: `move_backward` runs over
`[index, size_)`, so its first assignment overwrites the freshly move-constructed trailing
slot with the already moved-from last element. -/
theorem C2_insert_spare_capacity_overwrites_last :
    Vector.Holds (Vector.ofList 4 [1, 2, 3]) [1, 2, 3] ∧
    (Vector.Insert handleTraits none (Vector.ofList 4 [1, 2, 3]) 1 99).ret = some 1 ∧
    (Vector.Insert handleTraits none (Vector.ofList 4 [1, 2, 3]) 1 99).self.elems
      = [some 1, some 99, some 2, some 0] ∧
    ¬ Vector.Holds (Vector.Insert handleTraits none (Vector.ofList 4 [1, 2, 3]) 1 99).self
      ([1, 2, 3].take 1 ++ [99] ++ [1, 2, 3].drop 1) := by
  refine ⟨⟨⟨by decide, by decide⟩, by decide, by decide⟩, by decide, by decide, ?_⟩
  rintro ⟨-, -, h⟩
  revert h
  decide

/-- C4: copy assignment `b = a` with `b = [1]` held with capacity 2 and `a = [7, 8]` (the
capacity-reuse path with `a.size > b.size > 0`).  The claim requires `b = [7, 8]`; the code
leaves `b = [7, 7]`: it copy-constructs `a[0 .. a.size - b.size)` into the new slots and
copy-assigns only the first `a.size - b.size` elements. -/
theorem C4_copy_assign_reuse_path_wrong_elements :
    Vector.Holds (Vector.ofList 2 [1]) [1] ∧ Vector.Holds (Vector.ofList 2 [7, 8]) [7, 8] ∧
    (Vector.copyAssign (Vector.ofList 2 [1]) (Vector.ofList 2 [7, 8])).size_ = 2 ∧
    (Vector.copyAssign (Vector.ofList 2 [1]) (Vector.ofList 2 [7, 8])).elems
      = [some 7, some 7] ∧
    (Vector.copyAssign (Vector.ofList 2 [1]) (Vector.ofList 2 [7, 8])).elems
      ≠ (Vector.ofList 2 [7, 8]).elems := by
  refine ⟨⟨⟨by decide, by decide⟩, by decide, by decide⟩,
    ⟨⟨by decide, by decide⟩, by decide, by decide⟩, by decide, by decide, by decide⟩

/-- C5 as stated fails: after `b = move(a)` with `b = [1]` and `a = [7, 8]`, `b` holds
`[7, 8]` but `a` is not empty: it has size 1 and holds `[1]`. -/
theorem C5_move_assign_source_not_empty :
    (Vector.moveAssign (Vector.ofList 1 [1]) (Vector.ofList 2 [7, 8])).1.elems
      = [some 7, some 8] ∧
    ¬ ((Vector.moveAssign (Vector.ofList 1 [1]) (Vector.ofList 2 [7, 8])).2.size_ = 0 ∧
       (Vector.moveAssign (Vector.ofList 1 [1]) (Vector.ofList 2 [7, 8])).2.elems = []) := by
  refine ⟨by decide, ?_⟩
  rintro ⟨h, -⟩
  revert h
  decide

/-- C5 (amended): for every pair of distinct arrays `a` and `b`, after the move assignment
`b = move(a)`, `b` has the original elements, size and capacity of `a`, and `a` is left with
the original elements, size and capacity of `b`; so `a` is left with size 0 and no live
elements exactly when `b` was empty before the assignment. -/
theorem C5_move_assign_swaps {α : Type} (b a : Vector α) :
    (Vector.moveAssign b a).1.elems = a.elems ∧
    (Vector.moveAssign b a).1.size_ = a.size_ ∧
    (Vector.moveAssign b a).1.Capacity = a.Capacity ∧
    (Vector.moveAssign b a).2.elems = b.elems ∧
    (Vector.moveAssign b a).2.size_ = b.size_ ∧
    (Vector.moveAssign b a).2.Capacity = b.Capacity ∧
    (((Vector.moveAssign b a).2.size_ = 0 ∧ (Vector.moveAssign b a).2.elems = []) ↔
      b.size_ = 0) := by
  refine ⟨rfl, rfl, rfl, rfl, rfl, rfl, ?_⟩
  constructor
  · rintro ⟨h, -⟩
    exact h
  · intro h
    refine ⟨h, ?_⟩
    show b.data_.buffer_.take b.size_ = []
    rw [h]
    rfl

/-! ## Failure of a relocation copy -/

theorem uninitialized_copy_n_fails {α : Type} (k n s d : Nat) (src dst : Block α)
    (h : k < n) : ∃ r, uninitialized_copy_n (some k) n s d src dst = .error r := by
  induction n generalizing k s d dst with
  | zero => omega
  | succ n ih =>
    cases k with
    | zero => exact ⟨dst, by simp [uninitialized_copy_n]⟩
    | succ k =>
      obtain ⟨r, hr⟩ := ih k (s + 1) (d + 1) (dst.set d (rd src s)) (by omega)
      exact ⟨r.set d none, by simp [uninitialized_copy_n, hr]⟩

theorem uninitialized_copy_n_of_le {α : Type} (k n s d : Nat) (src dst : Block α)
    (h : n ≤ k) :
    uninitialized_copy_n (some k) n s d src dst = uninitialized_copy_n none n s d src dst := by
  induction n generalizing k s d dst with
  | zero => simp [uninitialized_copy_n]
  | succ n ih =>
    cases k with
    | zero => omega
    | succ k =>
      simp [uninitialized_copy_n, ih k (s + 1) (d + 1) (dst.set d (rd src s)) (by omega)]

theorem relocate_n_fails {α : Type} (t : ElemTraits α) (ht : t.relocByMove = false)
    (k n : Nat) (old nb : Block α) (h : k < n) :
    ∃ r, Vector.relocate_n t (some k) n old nb = .error r := by
  obtain ⟨r, hr⟩ := uninitialized_copy_n_fails k n 0 0 old nb h
  exact ⟨r, by simp [Vector.relocate_n, ht, hr]⟩

theorem Reserve_fails {α : Type} (t : ElemTraits α) (ht : t.relocByMove = false)
    (v : Vector α) (k n : Nat) (hk : k < v.size_) (hn : v.Capacity < n) :
    (Vector.Reserve t (some k) v n).ret = none ∧ (Vector.Reserve t (some k) v n).self = v := by
  unfold Vector.Reserve
  rw [if_neg (by unfold Vector.Capacity at hn; omega)]
  obtain ⟨r, hr⟩ := relocate_n_fails t ht k v.size_ v.data_.buffer_
    (RawMemory.ofCapacity n : RawMemory α).buffer_ hk
  simp [hr]

theorem PushBack_fails {α : Type} (t : ElemTraits α) (ht : t.relocByMove = false)
    (v : Vector α) (k : Nat) (x : α) (hk : k < v.size_) (hc : v.size_ = v.Capacity) :
    (Vector.PushBack t (some k) v x).ret = none ∧
      (Vector.PushBack t (some k) v x).self = v := by
  unfold Vector.PushBack
  rw [if_pos hc]
  obtain ⟨r, hr⟩ := relocate_n_fails t ht k v.size_ v.data_.buffer_
    (construct_at (RawMemory.ofCapacity (if v.size_ = 0 then 1 else v.size_ * 2) :
      RawMemory α).buffer_ v.size_ x) hk
  simp [hr]

theorem EmplaceBack_fails {α : Type} (t : ElemTraits α) (ht : t.relocByMove = false)
    (v : Vector α) (k : Nat) (x : α) (hk : k < v.size_) (hc : v.size_ = v.Capacity) :
    (Vector.EmplaceBack t (some k) v x).ret = none ∧
      (Vector.EmplaceBack t (some k) v x).self = v := by
  unfold Vector.EmplaceBack
  rw [if_pos hc]
  obtain ⟨r, hr⟩ := relocate_n_fails t ht k v.size_ v.data_.buffer_
    (construct_at (RawMemory.ofCapacity (if v.size_ = 0 then 1 else v.size_ * 2) :
      RawMemory α).buffer_ v.size_ x) hk
  simp [hr]

theorem Emplace_fails {α : Type} (t : ElemTraits α) (ht : t.relocByMove = false)
    (v : Vector α) (k i : Nat) (x : α) (hk : k < v.size_) (hc : v.size_ = v.Capacity)
    (hi : i ≤ v.size_) :
    (Vector.Emplace t (some k) v i x).ret = none ∧
      (Vector.Emplace t (some k) v i x).self = v := by
  unfold Vector.Emplace
  rw [if_neg (by omega)]
  simp only [ht, Bool.false_eq_true, if_false]
  by_cases h1 : k < i
  · obtain ⟨r, hr⟩ := uninitialized_copy_n_fails k i 0 0 v.data_.buffer_
      (construct_at (RawMemory.ofCapacity (if v.size_ = 0 then 1 else v.size_ * 2) :
        RawMemory α).buffer_ i x) h1
    simp [hr]
  · rw [uninitialized_copy_n_of_le k i 0 0 _ _ (by omega)]
    obtain ⟨r, hr, -, -⟩ := uninitialized_copy_n_none i 0 0 v.data_.buffer_
      (construct_at (RawMemory.ofCapacity (if v.size_ = 0 then 1 else v.size_ * 2) :
        RawMemory α).buffer_ i x)
    simp only [hr, Option.map_some']
    obtain ⟨r2, hr2⟩ := uninitialized_copy_n_fails (k - i) (v.size_ - i) i (i + 1)
      v.data_.buffer_ r (by omega)
    simp [hr2]

/-- C6: for an element type relocated by copy, if the copy constructor throws on the
`(k + 1)`-th relocated element (`k < size`, so any of the `size` relocation copies) during a
forced growth performed by `Reserve` (to more than the capacity), `PushBack`, `EmplaceBack`
or `Emplace` / `Insert` (called with `size == capacity`), the operation reports the failure
(it does not return) and the array, with its size, capacity and all elements, is exactly
what it was before the call. -/
theorem C6_copy_failure_leaves_array_unchanged {α : Type} (t : ElemTraits α)
    (ht : t.relocByMove = false) (v : Vector α) (k : Nat) (hk : k < v.size_) :
    (∀ n, v.Capacity < n →
      (Vector.Reserve t (some k) v n).ret = none ∧ (Vector.Reserve t (some k) v n).self = v) ∧
    (v.size_ = v.Capacity → ∀ x,
      ((Vector.PushBack t (some k) v x).ret = none ∧
        (Vector.PushBack t (some k) v x).self = v) ∧
      ((Vector.EmplaceBack t (some k) v x).ret = none ∧
        (Vector.EmplaceBack t (some k) v x).self = v) ∧
      (∀ i, i ≤ v.size_ →
        ((Vector.Emplace t (some k) v i x).ret = none ∧
          (Vector.Emplace t (some k) v i x).self = v) ∧
        ((Vector.Insert t (some k) v i x).ret = none ∧
          (Vector.Insert t (some k) v i x).self = v))) := by
  refine ⟨fun n hn => Reserve_fails t ht v k n hk hn, fun hc x => ⟨PushBack_fails t ht v k x hk hc,
    EmplaceBack_fails t ht v k x hk hc, fun i hi => ⟨Emplace_fails t ht v k i x hk hc hi,
      Emplace_fails t ht v k i x hk hc hi⟩⟩⟩

/-- Witness for C6: the array `[1, 2]` with capacity 2, the second relocation copy failing. -/
theorem C6_copy_failure_leaves_array_unchanged_witness :
    copyTraits.relocByMove = false ∧ 1 < (Vector.ofList 2 [1, 2]).size_ ∧
    (Vector.PushBack copyTraits (some 1) (Vector.ofList 2 [1, 2]) 3).ret = none ∧
    (Vector.PushBack copyTraits (some 1) (Vector.ofList 2 [1, 2]) 3).self
      = Vector.ofList 2 [1, 2] ∧
    (Vector.Emplace copyTraits (some 1) (Vector.ofList 2 [1, 2]) 1 3).self
      = Vector.ofList 2 [1, 2] :=
  have h := C6_copy_failure_leaves_array_unchanged copyTraits rfl (Vector.ofList 2 [1, 2]) 1
    (by decide)
  ⟨rfl, by decide, ((h.2 rfl 3).1).1, ((h.2 rfl 3).1).2, (((h.2 rfl 3).2.2 1 (by decide)).1).2⟩

/-! ## Capacity after an append or a positional insert -/

theorem EmplaceBack_capacity {α : Type} (t : ElemTraits α) (v : Vector α) (x : α) :
    (Vector.EmplaceBack t none v x).ret = some v.size_ ∧
    (Vector.EmplaceBack t none v x).self.size_ = v.size_ + 1 ∧
    (Vector.EmplaceBack t none v x).self.Capacity =
      if v.size_ = v.Capacity then max 1 (2 * v.Capacity) else v.Capacity := by
  unfold Vector.EmplaceBack
  by_cases h : v.size_ = v.Capacity
  · rw [if_pos h, if_pos h]
    obtain ⟨ob, r, hr, -, -, -⟩ := relocate_n_none t v.size_ v.data_.buffer_
      (construct_at (RawMemory.ofCapacity (if v.size_ = 0 then 1 else v.size_ * 2) :
        RawMemory α).buffer_ v.size_ x)
    simp only [hr]
    have h2 : v.data_.capacity_ = v.size_ := h.symm
    simp [Vector.Capacity, growth_size, h2]
  · rw [if_neg h, if_neg h]
    exact ⟨rfl, rfl, rfl⟩

theorem Emplace_capacity {α : Type} (t : ElemTraits α) (v : Vector α) (i : Nat) (x : α) :
    (Vector.Emplace t none v i x).self.size_ = v.size_ + 1 ∧
    (Vector.Emplace t none v i x).self.Capacity =
      if v.size_ < v.Capacity then v.Capacity else max 1 (2 * v.size_) := by
  unfold Vector.Emplace
  by_cases h : v.size_ < v.Capacity
  · rw [if_pos h, if_pos h]
    by_cases h0 : v.size_ = 0
    · rw [if_pos h0]
      exact ⟨rfl, rfl⟩
    · rw [if_neg h0]
      exact ⟨rfl, rfl⟩
  · rw [if_neg h, if_neg h]
    cases ht : t.relocByMove with
    | true => simp [Vector.Capacity, growth_size]
    | false =>
      obtain ⟨r, hr, -, -⟩ := uninitialized_copy_n_none i 0 0 v.data_.buffer_
        (construct_at (RawMemory.ofCapacity (if v.size_ = 0 then 1 else v.size_ * 2) :
          RawMemory α).buffer_ i x)
      obtain ⟨r2, hr2, -, -⟩ := uninitialized_copy_n_none (v.size_ - i) i (i + 1)
        v.data_.buffer_ r
      simp only [Bool.false_eq_true, if_false, hr, Option.map_none', hr2]
      simp [Vector.Capacity, growth_size]

theorem pushAll_snoc {α : Type} (t : ElemTraits α) (xs : List α) (x : α) :
    pushAll t (xs ++ [x]) = (Vector.PushBack t none (pushAll t xs) x).self := by
  simp [pushAll, run, List.foldl_append, Op.apply]

theorem pushAll_capacity {α : Type} (t : ElemTraits α) (xs : List α) (hne : xs ≠ []) :
    (pushAll t xs).size_ = xs.length ∧
    ∃ k, (pushAll t xs).Capacity = 2 ^ k ∧ xs.length ≤ 2 ^ k ∧ 2 ^ k < 2 * xs.length := by
  induction xs using List.reverseRecOn with
  | nil => exact absurd rfl hne
  | append_singleton ys y ih =>
    rw [pushAll_snoc]
    obtain ⟨-, hs, hc⟩ := PushBack_capacity t (pushAll t ys) y
    rw [hs, hc]
    by_cases hy : ys = []
    · subst hy
      refine ⟨rfl, 0, ?_, by simp, by simp⟩
      simp [pushAll, run, Vector.empty, Vector.Capacity, RawMemory.empty]
    · obtain ⟨h1, k, h2, h3, h4⟩ := ih hy
      rw [h1, h2]
      refine ⟨by simp, ?_⟩
      simp only [List.length_append, List.length_singleton]
      by_cases he : ys.length = 2 ^ k
      · refine ⟨k + 1, ?_, ?_, ?_⟩
        · rw [if_pos he, pow_succ]
          omega
        · rw [pow_succ]; omega
        · rw [pow_succ]; omega
      · exact ⟨k, by rw [if_neg he], by omega, by omega⟩

/-- C7: whenever `PushBack`, `EmplaceBack` or `Emplace` / `Insert` is called with
`size == capacity`, the capacity afterwards is exactly `max(1, 2 * old capacity)`; when
called with `size < capacity` the capacity is unchanged.  Consequently, after pushing
`n ≥ 1` elements into a default-constructed array the capacity is the smallest power of two
that is at least `n` (so the capacities observed are 1, 2, 4, 8, ...). -/
theorem C7_growth_doubles_capacity {α : Type} (t : ElemTraits α) (v : Vector α) (x : α)
    (i : Nat) (xs : List α) :
    (v.size_ = v.Capacity →
      (Vector.PushBack t none v x).self.Capacity = max 1 (2 * v.Capacity) ∧
      (Vector.EmplaceBack t none v x).self.Capacity = max 1 (2 * v.Capacity) ∧
      (Vector.Emplace t none v i x).self.Capacity = max 1 (2 * v.Capacity) ∧
      (Vector.Insert t none v i x).self.Capacity = max 1 (2 * v.Capacity)) ∧
    (v.size_ < v.Capacity →
      (Vector.PushBack t none v x).self.Capacity = v.Capacity ∧
      (Vector.EmplaceBack t none v x).self.Capacity = v.Capacity ∧
      (Vector.Emplace t none v i x).self.Capacity = v.Capacity ∧
      (Vector.Insert t none v i x).self.Capacity = v.Capacity) ∧
    (xs ≠ [] → ∃ k, (pushAll t xs).Capacity = 2 ^ k ∧ xs.length ≤ 2 ^ k ∧
      ∀ j, xs.length ≤ 2 ^ j → k ≤ j) := by
  have hp := (PushBack_capacity t v x).2.2
  have hb := (EmplaceBack_capacity t v x).2.2
  have he := (Emplace_capacity t v i x).2
  refine ⟨fun h => ?_, fun h => ?_, fun hne => ?_⟩
  · rw [if_pos h] at hp hb
    rw [if_neg (by omega), h] at he
    exact ⟨hp, hb, he, he⟩
  · rw [if_neg (by omega)] at hp hb
    rw [if_pos h] at he
    exact ⟨hp, hb, he, he⟩
  · obtain ⟨-, k, h1, h2, h3⟩ := pushAll_capacity t xs hne
    refine ⟨k, h1, h2, fun j hj => ?_⟩
    by_contra hc
    have hle : 2 ^ (j + 1) ≤ 2 ^ k := Nat.pow_le_pow_right (by decide) (by omega)
    rw [pow_succ] at hle
    omega

/-- Witness for C7: a full array of capacity 2, an array with spare capacity, and the
capacity after five pushes. -/
theorem C7_growth_doubles_capacity_witness :
    (Vector.ofList 2 [1, 2]).size_ = (Vector.ofList 2 [1, 2]).Capacity ∧
    (Vector.PushBack intTraits none (Vector.ofList 2 [1, 2]) 3).self.Capacity = 4 ∧
    (Vector.Emplace intTraits none (Vector.ofList 2 [1, 2]) 1 3).self.Capacity = 4 ∧
    (Vector.ofList 4 [1, 2]).size_ < (Vector.ofList 4 [1, 2]).Capacity ∧
    (Vector.PushBack intTraits none (Vector.ofList 4 [1, 2]) 3).self.Capacity = 4 ∧
    ([1, 2, 3, 4, 5] : List Nat) ≠ [] ∧
    (∃ k, (pushAll intTraits [1, 2, 3, 4, 5]).Capacity = 2 ^ k ∧
      [1, 2, 3, 4, 5].length ≤ 2 ^ k ∧ ∀ j, [1, 2, 3, 4, 5].length ≤ 2 ^ j → k ≤ j) :=
  ⟨rfl,
    ((C7_growth_doubles_capacity intTraits (Vector.ofList 2 [1, 2]) 3 1 []).1 rfl).1,
    ((C7_growth_doubles_capacity intTraits (Vector.ofList 2 [1, 2]) 3 1 []).1 rfl).2.2.1,
    by decide,
    ((C7_growth_doubles_capacity intTraits (Vector.ofList 4 [1, 2]) 3 1 []).2.1 (by decide)).1,
    by decide,
    (C7_growth_doubles_capacity intTraits (Vector.ofList 2 [1, 2]) 3 1 [1, 2, 3, 4, 5]).2.2
      (by decide)⟩

/-! ## Reserve and Resize -/

theorem Reserve_noop {α : Type} (t : ElemTraits α) (fail : Option Nat) (v : Vector α)
    (n : Nat) (h : n ≤ v.Capacity) : Vector.Reserve t fail v n = ⟨some (), v, none⟩ := by
  unfold Vector.Reserve
  rw [if_pos (show n ≤ v.data_.capacity_ from h)]

theorem Reserve_grows {α : Type} (t : ElemTraits α) (v : Vector α) (n : Nat)
    (hinv : Vector.Inv v) (h : v.Capacity < n) :
    (Vector.Reserve t none v n).ret = some () ∧
    Vector.Inv (Vector.Reserve t none v n).self ∧
    (Vector.Reserve t none v n).self.Capacity = n ∧
    (Vector.Reserve t none v n).self.size_ = v.size_ ∧
    (Vector.Reserve t none v n).self.elems = v.elems := by
  obtain ⟨hlen, hle⟩ := hinv
  unfold Vector.Capacity at h
  unfold Vector.Reserve
  rw [if_neg (by omega)]
  obtain ⟨ob, r, hr, hl, -, hj⟩ := relocate_n_none t v.size_ v.data_.buffer_
    (RawMemory.ofCapacity n : RawMemory α).buffer_
  simp only [hr]
  simp only [RawMemory.ofCapacity, RawMemory.Allocate, List.length_replicate] at hl hj
  refine ⟨by trivial, ⟨hl, by dsimp only; omega⟩, rfl, by trivial, ?_⟩
  unfold Vector.elems
  simp only [RawMemory.Swap]
  refine List.ext_getElem? fun j => ?_
  simp only [List.getElem?_take]
  by_cases h1 : j < v.size_
  · rw [if_pos h1, if_pos h1, hj, if_pos (by omega), some_rd _ _ (by omega)]
  · rw [if_neg h1, if_neg h1]

theorem Reserve_holds {α : Type} (t : ElemTraits α) (v : Vector α) (xs : List α) (n : Nat)
    (h : Vector.Holds v xs) :
    (Vector.Reserve t none v n).ret = some () ∧
    Vector.Holds (Vector.Reserve t none v n).self xs ∧
    (Vector.Reserve t none v n).self.Capacity = max v.Capacity n := by
  by_cases hn : n ≤ v.Capacity
  · rw [Reserve_noop t none v n hn]
    exact ⟨rfl, h, by dsimp only; omega⟩
  · obtain ⟨h1, h2, h3, h4, h5⟩ := Reserve_grows t v n h.1 (by omega)
    exact ⟨h1, ⟨h2, by rw [h4]; exact h.2.1, by rw [h5]; exact h.2.2⟩, by rw [h3]; omega⟩

/-- C8: for every array (satisfying its representation invariant) and every `n`,
`Reserve(n)` changes nothing at all when `n ≤ capacity`; when `n > capacity` it returns
with capacity exactly `n`, leaving the size and every element at indices `[0, size)`
unchanged. -/
theorem C8_reserve_exact_capacity {α : Type} (t : ElemTraits α) (v : Vector α) (n : Nat)
    (hinv : Vector.Inv v) :
    (n ≤ v.Capacity → ∀ fail,
      (Vector.Reserve t fail v n).ret = some () ∧ (Vector.Reserve t fail v n).self = v) ∧
    (v.Capacity < n →
      (Vector.Reserve t none v n).ret = some () ∧
      (Vector.Reserve t none v n).self.Capacity = n ∧
      (Vector.Reserve t none v n).self.size_ = v.size_ ∧
      (Vector.Reserve t none v n).self.elems = v.elems) := by
  refine ⟨fun h fail => by rw [Reserve_noop t fail v n h]; exact ⟨rfl, rfl⟩, fun h => ?_⟩
  obtain ⟨h1, -, h3, h4, h5⟩ := Reserve_grows t v n hinv h
  exact ⟨h1, h3, h4, h5⟩

/-- Witness for C8: reserving 5 slots for `[1, 2]` held with capacity 2. -/
theorem C8_reserve_exact_capacity_witness :
    Vector.Inv (Vector.ofList 2 [1, 2]) ∧
    (Vector.Reserve copyTraits none (Vector.ofList 2 [1, 2]) 5).self.Capacity = 5 ∧
    (Vector.Reserve copyTraits none (Vector.ofList 2 [1, 2]) 5).self.elems
      = [some 1, some 2] ∧
    (Vector.Reserve copyTraits none (Vector.ofList 2 [1, 2]) 1).self = Vector.ofList 2 [1, 2] :=
  have hinv : Vector.Inv (Vector.ofList 2 [1, 2]) := ⟨by decide, by decide⟩
  ⟨hinv,
    ((C8_reserve_exact_capacity copyTraits (Vector.ofList 2 [1, 2]) 5 hinv).2 (by decide)).2.1,
    ((C8_reserve_exact_capacity copyTraits (Vector.ofList 2 [1, 2]) 5 hinv).2
      (by decide)).2.2.2,
    ((C8_reserve_exact_capacity copyTraits (Vector.ofList 2 [1, 2]) 1 hinv).1 (by decide)
      none).2⟩

theorem Resize_grow_holds {α : Type} (t : ElemTraits α) (v : Vector α) (xs : List α)
    (n : Nat) (h : Vector.Holds v xs) (hn : v.size_ < n) :
    (Vector.Resize t none v n).ret = some () ∧
    Vector.Holds (Vector.Resize t none v n).self (xs ++ List.replicate (n - v.size_) t.dflt) ∧
    (Vector.Resize t none v n).self.size_ = n ∧
    (Vector.Resize t none v n).self.Capacity = max v.Capacity n := by
  obtain ⟨h1, h2, h3⟩ := Reserve_holds t v xs n h
  rw [holds_iff] at h2 ⊢
  obtain ⟨⟨hlen, hle⟩, hs, he⟩ := h2
  have hvs : v.size_ = xs.length := h.2.1
  unfold Vector.Capacity at h3
  unfold Vector.Resize
  rw [if_neg (by omega), if_pos (by omega)]
  simp only [h1]
  refine ⟨by trivial, ⟨⟨by simp [hlen], by dsimp only; omega⟩, by simp; omega,
    fun j hjl => ?_⟩, by trivial, h3⟩
  simp only [List.length_append, List.length_replicate] at hjl
  rw [uninitialized_value_construct_n_getElem?]
  by_cases h4 : j < xs.length
  · rw [if_neg (by omega), he j h4, List.getElem?_append_left h4]
  · rw [if_pos (by omega), List.getElem?_append_right (by omega), List.getElem?_replicate,
      if_pos (by omega)]

theorem Resize_shrink_holds {α : Type} (t : ElemTraits α) (v : Vector α) (xs : List α)
    (n : Nat) (h : Vector.Holds v xs) (hn : n ≤ v.size_) :
    (Vector.Resize t none v n).ret = some () ∧
    Vector.Holds (Vector.Resize t none v n).self (xs.take n) ∧
    (Vector.Resize t none v n).self.size_ = n ∧
    (Vector.Resize t none v n).self.Capacity = v.Capacity := by
  have hvs : v.size_ = xs.length := h.2.1
  unfold Vector.Resize
  by_cases h0 : n = v.size_
  · rw [if_pos h0]
    refine ⟨rfl, ?_, h0.symm, rfl⟩
    rw [h0, hvs, List.take_length]
    exact h
  · rw [if_neg h0, if_neg (by omega)]
    rw [holds_iff] at h ⊢
    obtain ⟨⟨hlen, hle⟩, hs, he⟩ := h
    refine ⟨rfl, ⟨⟨by simp [hlen], by dsimp only; omega⟩, by simp; omega, fun j hjl => ?_⟩,
      rfl, rfl⟩
    simp only [List.length_take] at hjl
    dsimp only
    rw [destroy_n_getElem?, if_neg (by omega), List.getElem?_take, if_pos (by omega),
      he j (by omega)]

/-- C9: for every array holding `xs` and every `n`, `Resize(n)` returns with `size == n`;
if `n` exceeds the old size the elements are `xs` followed by `n - old size`
value-initialised elements and the capacity is `max(old capacity, n)`; if `n` is at most the
old size the elements are the first `n` elements of `xs` and the capacity is unchanged. -/
theorem C9_resize {α : Type} (t : ElemTraits α) (v : Vector α) (xs : List α) (n : Nat)
    (h : Vector.Holds v xs) :
    (Vector.Resize t none v n).ret = some () ∧
    (Vector.Resize t none v n).self.size_ = n ∧
    (v.size_ < n →
      Vector.Holds (Vector.Resize t none v n).self
        (xs ++ List.replicate (n - v.size_) t.dflt) ∧
      (Vector.Resize t none v n).self.Capacity = max v.Capacity n) ∧
    (n ≤ v.size_ →
      Vector.Holds (Vector.Resize t none v n).self (xs.take n) ∧
      (Vector.Resize t none v n).self.Capacity = v.Capacity) := by
  by_cases hn : v.size_ < n
  · obtain ⟨h1, h2, h3, h4⟩ := Resize_grow_holds t v xs n h hn
    exact ⟨h1, h3, fun _ => ⟨h2, h4⟩, fun hc => absurd hc (by omega)⟩
  · obtain ⟨h1, h2, h3, h4⟩ := Resize_shrink_holds t v xs n h (by omega)
    exact ⟨h1, h3, fun hc => absurd hc hn, fun _ => ⟨h2, h4⟩⟩

/-- Witness for C9: `[1, 2]` resized to 5 gives `[1, 2, 0, 0, 0]`; resizing that to 1 gives
`[1]` with the capacity still 5. -/
theorem C9_resize_witness :
    Vector.Holds (Vector.ofList 2 [1, 2]) [1, 2] ∧
    (Vector.Resize intTraits none (Vector.ofList 2 [1, 2]) 5).self.elems
      = [some 1, some 2, some 0, some 0, some 0] ∧
    Vector.Holds (Vector.Resize intTraits none (Vector.ofList 2 [1, 2]) 5).self
      [1, 2, 0, 0, 0] ∧
    (Vector.Resize intTraits none
      (Vector.Resize intTraits none (Vector.ofList 2 [1, 2]) 5).self 1).self.elems = [some 1] ∧
    (Vector.Resize intTraits none
      (Vector.Resize intTraits none (Vector.ofList 2 [1, 2]) 5).self 1).self.Capacity = 5 :=
  have h0 : Vector.Holds (Vector.ofList 2 [1, 2]) [1, 2] :=
    ⟨⟨by decide, by decide⟩, by decide, by decide⟩
  have h1 : Vector.Holds (Vector.Resize intTraits none (Vector.ofList 2 [1, 2]) 5).self
      [1, 2, 0, 0, 0] :=
    ((C9_resize intTraits (Vector.ofList 2 [1, 2]) [1, 2] 5 h0).2.2.1 (by decide)).1
  have h2 := (C9_resize intTraits _ [1, 2, 0, 0, 0] 1 h1).2.2.2 (by decide)
  ⟨h0, h1.2.2, h1, h2.1.2.2, h2.2⟩

/-! ## Insert followed by erase on a concrete array -/

/-- C10: `Insert` of 9 at index 0 into `[5, 6]` held with capacity 3, followed by `Erase` at
index 0, for an element type whose move empties its source.  The claim requires the
original `[5, 6]` back; the code leaves `[9, 5, 0]` after the insert and `[5, 0]` after the
erase: the insert with spare capacity has overwritten the last element with a moved-from
object. -/
theorem C10_insert_then_erase_loses_last :
    Vector.Holds (Vector.ofList 3 [5, 6]) [5, 6] ∧
    (Vector.Insert handleTraits none (Vector.ofList 3 [5, 6]) 0 9).self.elems
      = [some 9, some 5, some 0] ∧
    (Vector.Erase handleTraits
      (Vector.Insert handleTraits none (Vector.ofList 3 [5, 6]) 0 9).self 0).2.size_ = 2 ∧
    (Vector.Erase handleTraits
      (Vector.Insert handleTraits none (Vector.ofList 3 [5, 6]) 0 9).self 0).2.elems
      = [some 5, some 0] ∧
    (Vector.Erase handleTraits
      (Vector.Insert handleTraits none (Vector.ofList 3 [5, 6]) 0 9).self 0).2.elems
      ≠ (Vector.ofList 3 [5, 6]).elems := by
  refine ⟨⟨⟨by decide, by decide⟩, by decide, by decide⟩, by decide, by decide, by decide,
    by decide⟩

/-! ## Positional insert in general -/

theorem insertAt_getElem? {α : Type} (xs : List α) (i : Nat) (x : α) (j : Nat)
    (hi : i ≤ xs.length) :
    (insertAt xs i x)[j]? =
      if j < i then xs[j]? else if j = i then some x else xs[j - 1]? := by
  unfold insertAt
  have hl : (xs.take i).length = i := by simp [List.length_take, hi]
  by_cases h1 : j < i
  · rw [if_pos h1, List.append_assoc, List.getElem?_append_left (by omega), List.getElem?_take,
      if_pos h1]
  · rw [if_neg h1, List.append_assoc, List.getElem?_append_right (by omega), hl]
    by_cases h2 : j = i
    · subst h2
      simp
    · rw [if_neg h2]
      have e : j - i = (j - i - 1) + 1 := by omega
      rw [e, List.singleton_append, List.getElem?_cons_succ, List.getElem?_drop]
      congr 1
      omega

theorem insertAt_length {α : Type} (xs : List α) (i : Nat) (x : α) :
    (insertAt xs i x).length = xs.length + 1 := by
  simp only [insertAt, List.length_append, List.length_take, List.length_drop,
    List.length_singleton]
  omega

theorem movedLast_getElem? {α : Type} (t : ElemTraits α) (xs : List α) (k : Nat) :
    (movedLast t xs)[k]? =
      if k + 1 < xs.length then xs[k]? else if k + 1 = xs.length then (xs[k]?).map t.moved
      else none := by
  unfold movedLast
  rw [List.getElem?_append, List.length_dropLast, List.getElem?_dropLast,
    List.getLast?_eq_getElem?]
  by_cases h1 : k + 1 < xs.length
  · rw [if_pos (by omega), if_pos (by omega), if_pos h1]
  · rw [if_neg (by omega), if_neg h1]
    by_cases h2 : k + 1 = xs.length
    · rw [if_pos h2]
      have e : xs.length - 1 = k := by omega
      have e2 : k - k = 0 := by omega
      rw [e, e2, List.getElem?_eq_getElem (by omega : k < xs.length)]
      simp
    · rw [if_neg h2]
      by_cases h3 : xs.length = 0
      · have : xs = [] := List.length_eq_zero.mp h3
        subst this
        simp
      · have : xs.length - 1 < xs.length := by omega
        rw [List.getElem?_eq_getElem this]
        simp
        omega

theorem movedLast_length {α : Type} (t : ElemTraits α) (xs : List α) :
    (movedLast t xs).length = xs.length := by
  unfold movedLast
  rw [List.length_append, List.length_dropLast, List.getLast?_eq_getElem?]
  by_cases h3 : xs.length = 0
  · have : xs = [] := List.length_eq_zero.mp h3
    subst this
    simp
  · have : xs.length - 1 < xs.length := by omega
    rw [List.getElem?_eq_getElem this]
    simp
    omega

theorem movedLast_eq_self {α : Type} (t : ElemTraits α) (xs : List α)
    (hm : ∀ a, t.moved a = a) : movedLast t xs = xs := by
  refine List.ext_getElem? fun k => ?_
  rw [movedLast_getElem?]
  by_cases h1 : k + 1 < xs.length
  · rw [if_pos h1]
  · rw [if_neg h1]
    by_cases h2 : k + 1 = xs.length
    · rw [if_pos h2]
      cases xs[k]? with
      | none => rfl
      | some a => simp [hm]
    · rw [if_neg h2, List.getElem?_eq_none (by omega)]

theorem rd_of_getElem? {α : Type} (b : Block α) (k : Nat) (o : Option α)
    (h : b[k]? = some o) : rd b k = o := by
  simp [rd, h]

theorem rd_congr {α : Type} (b d : Block α) (j k : Nat) (h : b[j]? = d[k]?) :
    rd b j = rd d k := by
  simp [rd, h]

theorem uninitialized_move_n_src_getElem? {α : Type} (t : ElemTraits α)
    (n s d : Nat) (src dst : Block α) (j : Nat) :
    (uninitialized_move_n t n s d src dst).1[j]? =
      if s ≤ j ∧ j < s + n ∧ j < src.length then some ((rd src j).map t.moved)
      else src[j]? := by
  induction n generalizing s d src dst with
  | zero =>
    have h2 : ¬ (s ≤ j ∧ j < s ∧ j < src.length) := by omega
    simp [uninitialized_move_n, h2]
  | succ n ih =>
    simp only [uninitialized_move_n, ih, List.getElem?_set, List.length_set]
    by_cases h1 : s + 1 ≤ j ∧ j < s + 1 + n ∧ j < src.length
    · have h2 : s ≤ j ∧ j < s + (n + 1) ∧ j < src.length := by omega
      rw [if_pos h1, if_pos h2, rd_set_of_lt _ _ _ _ (by omega)]
    · rw [if_neg h1]
      by_cases h3 : s = j
      · subst h3
        by_cases h4 : s < src.length
        · have h2 : s ≤ s ∧ s < s + (n + 1) ∧ s < src.length := by omega
          simp [h4, h2]
        · have h2 : ¬ (s ≤ s ∧ s < s + (n + 1) ∧ s < src.length) := by omega
          simp [h4, h2, List.getElem?_eq_none (Nat.le_of_not_lt h4)]
      · have h2 : ¬ (s ≤ j ∧ j < s + (n + 1) ∧ j < src.length) := by omega
        simp [h3, h2]

/-- Shifting `[last - n, last)` one slot to the right: every slot except the first source
slot `last - n` (left moved-from) is described by the original block. -/
theorem move_backward_right_getElem? {α : Type} (t : ElemTraits α) (n last d_last : Nat)
    (b : Block α) (hd : d_last = last + 1) (hn : n ≤ last) (hl : last < b.length)
    (j : Nat) (hj : j ≠ last - n) :
    (move_backward t n last d_last b)[j]? =
      if last - n < j ∧ j ≤ last then b[j - 1]? else b[j]? := by
  induction n generalizing last d_last b with
  | zero =>
    have h2 : ¬ (last - 0 < j ∧ j ≤ last) := by omega
    simp only [move_backward, if_neg h2]
  | succ n ih =>
    simp only [move_backward]
    rw [ih (last - 1) (d_last - 1) _ (by omega) (by omega) (by simp; omega) (by omega)]
    subst hd
    have e : last + 1 - 1 = last := by omega
    simp only [move_assign, List.getElem?_set, List.length_set, e]
    by_cases h1 : last - 1 - n < j ∧ j ≤ last - 1
    · have h2 : last - (n + 1) < j ∧ j ≤ last := by omega
      rw [if_pos h1, if_pos h2, if_neg (by omega), if_neg (by omega)]
    · rw [if_neg h1]
      by_cases h3 : j = last
      · subst h3
        have h2 : j - (n + 1) < j ∧ j ≤ j := by omega
        rw [if_neg (by omega), if_pos rfl, if_pos hl, if_pos h2, some_rd _ _ (by omega)]
      · have h2 : ¬ (last - (n + 1) < j ∧ j ≤ last) := by omega
        rw [if_neg (by omega), if_neg (by omega), if_neg h2]

theorem Emplace_growth_holds {α : Type} (t : ElemTraits α) (v : Vector α) (xs : List α)
    (i : Nat) (x : α) (h : Vector.Holds v xs) (hc : v.size_ = v.Capacity)
    (hi : i ≤ v.size_) :
    (Vector.Emplace t none v i x).ret = some i ∧
      Vector.Holds (Vector.Emplace t none v i x).self (insertAt xs i x) := by
  rw [holds_iff] at h ⊢
  obtain ⟨⟨hlen, hle⟩, hs, he⟩ := h
  have hN : v.size_ < (if v.size_ = 0 then 1 else v.size_ * 2) := by
    by_cases h0 : v.size_ = 0
    · rw [if_pos h0]; omega
    · rw [if_neg h0]; omega
  unfold Vector.Emplace
  rw [if_neg (by omega)]
  generalize (if v.size_ = 0 then 1 else v.size_ * 2) = N at hN ⊢
  have key : ∀ r : Block α, r.length = N →
      (∀ j, j < v.size_ + 1 → r[j]? =
        if i + 1 ≤ j ∧ j < v.size_ + 1 then v.data_.buffer_[j - 1]?
        else if j < i then v.data_.buffer_[j]? else some (some x)) →
      ∀ j, j < (insertAt xs i x).length → r[j]? = some (insertAt xs i x)[j]? := by
    intro r _ hr j hj
    rw [insertAt_length] at hj
    rw [hr j (by omega), insertAt_getElem? xs i x j (by omega)]
    by_cases h1 : i + 1 ≤ j ∧ j < v.size_ + 1
    · rw [if_pos h1, if_neg (by omega), if_neg (by omega), he (j - 1) (by omega)]
    · rw [if_neg h1]
      by_cases h2 : j < i
      · rw [if_pos h2, if_pos h2, he j (by omega)]
      · rw [if_neg h2, if_neg h2, if_pos (by omega)]
  cases ht : t.relocByMove with
  | true =>
    simp only [if_true]
    refine ⟨by trivial, ⟨by simp [RawMemory.Swap, RawMemory.ofCapacity, RawMemory.Allocate,
      construct_at], by first | omega | (dsimp only; omega)⟩,
      by rw [insertAt_length]; omega, ?_⟩
    refine key _ (by simp [RawMemory.Swap, RawMemory.ofCapacity, RawMemory.Allocate,
      construct_at]) fun j hjs => ?_
    simp only [RawMemory.Swap, RawMemory.ofCapacity, RawMemory.Allocate, construct_at,
      uninitialized_move_n_getElem?, uninitialized_move_n_length, List.length_set,
      List.length_replicate, List.getElem?_set, List.getElem?_replicate]
    by_cases h1 : i + 1 ≤ j ∧ j < v.size_ + 1
    · have h2 : i + 1 ≤ j ∧ j < i + 1 + (v.size_ - i) ∧ j < N := by omega
      have e : i + (j - (i + 1)) = j - 1 := by omega
      rw [if_pos h2, if_pos h1, e,
        rd_congr _ v.data_.buffer_ (j - 1) (j - 1) (by
          rw [uninitialized_move_n_src_getElem?, if_neg (by omega)]),
        some_rd _ _ (by omega)]
    · have h2 : ¬ (i + 1 ≤ j ∧ j < i + 1 + (v.size_ - i) ∧ j < N) := by omega
      rw [if_neg h2, if_neg h1]
      by_cases h3 : j < i
      · have h4 : 0 ≤ j ∧ j < 0 + i ∧ j < N := by omega
        have e : 0 + (j - 0) = j := by omega
        rw [if_pos h4, if_pos h3, e, some_rd _ _ (by omega)]
      · have h4 : ¬ (0 ≤ j ∧ j < 0 + i ∧ j < N) := by omega
        have h5 : i = j := by omega
        rw [if_neg h4, if_neg h3, if_pos h5, if_pos (by omega)]
  | false =>
    obtain ⟨r1, hr1, hl1, hj1⟩ := uninitialized_copy_n_none i 0 0 v.data_.buffer_
      (construct_at (RawMemory.ofCapacity N : RawMemory α).buffer_ i x)
    obtain ⟨r2, hr2, hl2, hj2⟩ := uninitialized_copy_n_none (v.size_ - i) i (i + 1)
      v.data_.buffer_ r1
    simp only [Bool.false_eq_true, if_false, hr1, Option.map_none', hr2]
    simp only [RawMemory.ofCapacity, RawMemory.Allocate, construct_at, List.length_set,
      List.length_replicate] at hl1 hj1
    rw [hl1] at hl2 hj2
    refine ⟨by trivial, ⟨by simp [RawMemory.Swap, hl2],
      by first | omega | (dsimp only; omega)⟩,
      by rw [insertAt_length]; omega, ?_⟩
    refine key _ (by simp [RawMemory.Swap, hl2]) fun j hjs => ?_
    simp only [RawMemory.Swap]
    rw [hj2, hj1]
    simp only [List.getElem?_set, List.length_replicate, List.getElem?_replicate]
    by_cases h1 : i + 1 ≤ j ∧ j < v.size_ + 1
    · have h2 : i + 1 ≤ j ∧ j < i + 1 + (v.size_ - i) ∧ j < N := by omega
      have e : i + (j - (i + 1)) = j - 1 := by omega
      rw [if_pos h2, if_pos h1, e, some_rd _ _ (by omega)]
    · have h2 : ¬ (i + 1 ≤ j ∧ j < i + 1 + (v.size_ - i) ∧ j < N) := by omega
      rw [if_neg h2, if_neg h1]
      by_cases h3 : j < i
      · have h4 : 0 ≤ j ∧ j < 0 + i ∧ j < N := by omega
        have e : 0 + (j - 0) = j := by omega
        rw [if_pos h4, if_pos h3, e, some_rd _ _ (by omega)]
      · have h4 : ¬ (0 ≤ j ∧ j < 0 + i ∧ j < N) := by omega
        have h5 : i = j := by omega
        rw [if_neg h4, if_neg h3, if_pos h5, if_pos (by omega)]

theorem Emplace_spare_holds {α : Type} (t : ElemTraits α) (v : Vector α) (xs : List α)
    (i : Nat) (x : α) (h : Vector.Holds v xs) (hc : v.size_ < v.Capacity)
    (hi : i ≤ v.size_) :
    (Vector.Emplace t none v i x).ret = some i ∧
      Vector.Holds (Vector.Emplace t none v i x).self (insertAt (movedLast t xs) i x) := by
  rw [holds_iff] at h ⊢
  obtain ⟨⟨hlen, hle⟩, hs, he⟩ := h
  have hc2 : v.size_ < v.data_.capacity_ := hc
  have hml := movedLast_length t xs
  unfold Vector.Emplace
  rw [if_pos hc]
  by_cases h0 : v.size_ = 0
  · rw [if_pos h0]
    have hi0 : i = 0 := by omega
    subst hi0
    refine ⟨rfl, ⟨by simp [construct_at, hlen], by dsimp only; omega⟩,
      by rw [insertAt_length, hml]; dsimp only; omega, fun j hj => ?_⟩
    rw [insertAt_length, hml] at hj
    have hj0 : j = 0 := by omega
    subst hj0
    have hpos : 0 < v.data_.buffer_.length := by omega
    rw [insertAt_getElem? _ 0 x 0 (by omega)]
    simp [construct_at, hpos]
  · rw [if_neg h0]
    have hlast : rd v.data_.buffer_ (v.size_ - 1) = xs[v.size_ - 1]? :=
      rd_of_getElem? _ _ _ (he (v.size_ - 1) (by omega))
    refine ⟨rfl, ⟨by simp [construct_at, hlen], by dsimp only; omega⟩,
      by rw [insertAt_length, hml]; dsimp only; omega, fun j hj => ?_⟩
    rw [insertAt_length, hml] at hj
    rw [insertAt_getElem? _ i x j (by omega)]
    dsimp only
    simp only [construct_at, List.getElem?_set, destroy_n_length, move_backward_length,
      List.length_set]
    by_cases h1 : i = j
    · rw [if_pos h1, if_pos (by omega), if_neg (by omega), if_pos h1.symm]
    · rw [if_neg h1, destroy_n_getElem?, if_neg (by omega),
        move_backward_right_getElem? t _ v.size_ _ _ rfl (by omega) (by simp; omega) j
          (by omega)]
      simp only [List.getElem?_set, List.length_set, movedLast_getElem?, hlast]
      by_cases h2 : v.size_ - (v.size_ - i) < j ∧ j ≤ v.size_
      · by_cases h3 : v.size_ - 1 = j - 1
        · rw [if_pos h2, if_pos h3, if_pos (by omega), if_neg (by omega), if_neg (by omega),
            if_neg (by omega), if_pos (by omega), h3]
        · rw [if_pos h2, if_neg h3, if_neg (by omega), if_neg (by omega), if_neg (by omega),
            if_pos (by omega), he (j - 1) (by omega)]
      · by_cases h3 : v.size_ - 1 = j
        · rw [if_neg h2, if_pos h3, if_pos (by omega), if_pos (by omega), if_neg (by omega),
            if_pos (by omega), h3]
        · rw [if_neg h2, if_neg h3, if_neg (by omega), if_pos (by omega), if_pos (by omega),
            he j (by omega)]

/-- Positional insert does what C2 describes whenever the insert forces growth, and also
with spare capacity when a move of the element type leaves the value of its source
unchanged (as for `int`). -/
theorem Emplace_holds_of_growth_or_plain_move {α : Type} (t : ElemTraits α) (v : Vector α)
    (xs : List α) (i : Nat) (x : α) (h : Vector.Holds v xs) (hi : i ≤ v.size_)
    (hm : v.size_ = v.Capacity ∨ ∀ a, t.moved a = a) :
    (Vector.Emplace t none v i x).ret = some i ∧
      Vector.Holds (Vector.Emplace t none v i x).self (xs.take i ++ [x] ++ xs.drop i) ∧
      (Vector.Emplace t none v i x).self.size_ = v.size_ + 1 := by
  refine ⟨?_, ?_, (Emplace_capacity t v i x).1⟩
  · by_cases hc : v.size_ = v.Capacity
    · exact (Emplace_growth_holds t v xs i x h hc hi).1
    · exact (Emplace_spare_holds t v xs i x h (lt_of_le_of_ne h.1.2 hc) hi).1
  · by_cases hc : v.size_ = v.Capacity
    · exact (Emplace_growth_holds t v xs i x h hc hi).2
    · have hm2 : ∀ a, t.moved a = a := hm.resolve_left hc
      have := (Emplace_spare_holds t v xs i x h (lt_of_le_of_ne h.1.2 hc) hi).2
      rwa [movedLast_eq_self t xs hm2] at this

theorem insertAt_eraseIdx {α : Type} (xs : List α) (i : Nat) (x : α)
    (hi : i ≤ xs.length) : (insertAt xs i x).eraseIdx i = xs := by
  refine List.ext_getElem? fun j => ?_
  rw [List.getElem?_eraseIdx]
  by_cases h1 : j < i
  · rw [if_pos h1, insertAt_getElem? xs i x j hi, if_pos h1]
  · rw [if_neg h1, insertAt_getElem? xs i x (j + 1) hi, if_neg (by omega), if_neg (by omega)]
    rfl

/-- Insert followed by erase at the same index restores the array whenever the insert forces
growth, and also with spare capacity when a move of the element type leaves the value of
its source unchanged. -/
theorem Erase_Emplace_of_growth_or_plain_move {α : Type} (t : ElemTraits α) (v : Vector α)
    (xs : List α) (i : Nat) (x : α) (h : Vector.Holds v xs) (hi : i ≤ v.size_)
    (hm : v.size_ = v.Capacity ∨ ∀ a, t.moved a = a) :
    Vector.Holds (Vector.Erase t (Vector.Emplace t none v i x).self i).2 xs := by
  obtain ⟨-, h2, h3⟩ := Emplace_holds_of_growth_or_plain_move t v xs i x h hi hm
  have h4 := (Erase_holds t _ _ i h2 (by omega)).2.1
  have e : xs.take i ++ [x] ++ xs.drop i = insertAt xs i x := rfl
  rw [e, insertAt_eraseIdx xs i x (by rw [← h.2.1]; exact hi)] at h4
  exact h4

/-! ## Move construction -/

theorem moveCtor_eq {α : Type} (other : Vector α) :
    (Vector.moveCtor other).1 = other ∧
    (Vector.moveCtor other).2.size_ = 0 ∧
    (Vector.moveCtor other).2.Capacity = other.size_ ∧
    (Vector.moveCtor other).2.data_.buffer_ = List.replicate other.size_ none :=
  ⟨rfl, rfl, rfl, rfl⟩

/-- C11: move construction `Vector b(std::move(a))` with `a = [7, 8]` (capacity 2).  `b`
receives the elements, size and capacity of `a`, and `a` is left with size 0; but the claim
requires `a.capacity == 0` with no storage block held, and the code leaves `a` with
capacity 2 and a freshly allocated block of two raw slots: the constructor initialises
`data_(other.size_)` before swapping. -/
theorem C11_move_ctor_source_keeps_block :
    Vector.Holds (Vector.ofList 2 [7, 8]) [7, 8] ∧
    (Vector.moveCtor (Vector.ofList 2 [7, 8])).1 = Vector.ofList 2 [7, 8] ∧
    (Vector.moveCtor (Vector.ofList 2 [7, 8])).2.size_ = 0 ∧
    (Vector.moveCtor (Vector.ofList 2 [7, 8])).2.Capacity = 2 ∧
    (Vector.moveCtor (Vector.ofList 2 [7, 8])).2.data_.buffer_ = [none, none] ∧
    ¬ RawMemory.IsEmpty (Vector.moveCtor (Vector.ofList 2 [7, 8])).2.data_ := by
  refine ⟨⟨⟨by decide, by decide⟩, by decide, by decide⟩, by decide, by decide, by decide,
    by decide, ?_⟩
  rintro ⟨-, h⟩
  revert h
  decide

/-- C12: move construction and move assignment of `RawMemory` from `src = RawMemory(2)`.
The destination receives the buffer and capacity of `src`, but the claim requires `src` to
be left with a null buffer and capacity 0, and the code leaves `src` exactly as it was,
still holding the buffer with capacity 2: `std::move` of a pointer or of a `size_t` is a
copy, and nothing resets the source. -/
theorem C12_raw_memory_move_keeps_source :
    (RawMemory.moveCtor (RawMemory.ofCapacity 2 : RawMemory Nat)).1
      = RawMemory.ofCapacity 2 ∧
    (RawMemory.moveCtor (RawMemory.ofCapacity 2 : RawMemory Nat)).2
      = RawMemory.ofCapacity 2 ∧
    ¬ RawMemory.IsEmpty (RawMemory.moveCtor (RawMemory.ofCapacity 2 : RawMemory Nat)).2 ∧
    (RawMemory.moveAssign RawMemory.empty (RawMemory.ofCapacity 2 : RawMemory Nat)).1
      = RawMemory.ofCapacity 2 ∧
    (RawMemory.moveAssign RawMemory.empty (RawMemory.ofCapacity 2 : RawMemory Nat)).2.capacity_
      = 2 ∧
    ¬ RawMemory.IsEmpty
      (RawMemory.moveAssign RawMemory.empty (RawMemory.ofCapacity 2 : RawMemory Nat)).2 := by
  refine ⟨rfl, rfl, ?_, rfl, rfl, ?_⟩
  · rintro ⟨-, h⟩
    revert h
    decide
  · rintro ⟨-, h⟩
    revert h
    decide

/-! ## Positional insert with spare capacity on concrete arrays -/

/-- C15: positional insert with spare capacity into `[1, 2, 3]` (capacity 4) for an element
type whose move empties its source.  The claim requires every original value to stay
intact; the code yields `[99, 1, 2, 0]` for index 0 and `[1, 2, 0, 99]` for index 3
(`i == size`): after move-constructing the trailing slot from the last element,
`move_backward` runs over the whole of `[index, size_)`, so the trailing slot is overwritten
by the moved-from last element, and for `i == size` the last element is left moved-from. -/
theorem C15_spare_insert_overwrites_trailing_slot :
    Vector.Holds (Vector.ofList 4 [1, 2, 3]) [1, 2, 3] ∧
    (Vector.Emplace handleTraits none (Vector.ofList 4 [1, 2, 3]) 0 99).self.elems
      = [some 99, some 1, some 2, some 0] ∧
    (Vector.Emplace handleTraits none (Vector.ofList 4 [1, 2, 3]) 3 99).self.elems
      = [some 1, some 2, some 0, some 99] ∧
    move_backward handleTraits 3 3 4 [some 1, some 2, some 0, some 3]
      = [some 0, some 1, some 2, some 0] := by
  refine ⟨⟨⟨by decide, by decide⟩, by decide, by decide⟩, by decide, by decide, by decide⟩

/-! ## Slots left live in the new block when a growth fails -/

/-- C17: growth of `[1, 2]` (capacity 2) for an element type relocated by copy, with a
throwing relocation copy.  The claim requires every slot constructed in the new block to be
destroyed before the block is released.  In `PushBack(3)` and `EmplaceBack(3)` with the first
relocation copy throwing, the new block is released as `[raw, raw, 3, raw]`: the new value
is still live.  In `Emplace` at index 1 with the second relocation copy (the first of the
suffix) throwing, the block is released as `[1, raw, raw, raw]`: the handler destroys the
new value only, and the copied element of `[0, index)` is still live. -/
theorem C17_growth_failure_leaves_live_slots :
    (Vector.PushBack copyTraits (some 0) (Vector.ofList 2 [1, 2]) 3).ret = none ∧
    (Vector.PushBack copyTraits (some 0) (Vector.ofList 2 [1, 2]) 3).new_data
      = some ⟨[none, none, some 3, none], 4⟩ ∧
    (Vector.EmplaceBack copyTraits (some 0) (Vector.ofList 2 [1, 2]) 3).ret = none ∧
    (Vector.EmplaceBack copyTraits (some 0) (Vector.ofList 2 [1, 2]) 3).new_data
      = some ⟨[none, none, some 3, none], 4⟩ ∧
    (Vector.Emplace copyTraits (some 1) (Vector.ofList 2 [1, 2]) 1 9).ret = none ∧
    (Vector.Emplace copyTraits (some 1) (Vector.ofList 2 [1, 2]) 1 9).new_data
      = some ⟨[some 1, none, none, none], 4⟩ := by
  refine ⟨by decide, by decide, by decide, by decide, by decide, by decide⟩

/-! ## The three ways to append on a concrete array -/

theorem PushBack_eq_EmplaceBack {α : Type} (t : ElemTraits α) (fail : Option Nat)
    (v : Vector α) (x : α) :
    (Vector.PushBack t fail v x).self = (Vector.EmplaceBack t fail v x).self := by
  unfold Vector.PushBack Vector.EmplaceBack
  by_cases h : v.size_ = v.Capacity
  · rw [if_pos h, if_pos h]
    cases hr : Vector.relocate_n t fail v.size_ v.data_.buffer_
      (construct_at (RawMemory.ofCapacity (if v.size_ = 0 then 1 else v.size_ * 2) :
        RawMemory α).buffer_ v.size_ x) with
    | error nb => simp only [hr]
    | ok p => simp only [hr, RawMemory.Swap]
  · rw [if_neg h, if_neg h]

/-- C20: appending 9 to `[1, 2]` held with capacity 3, for an element type whose move
empties its source.  `PushBack(9)` and `EmplaceBack(9)` both give `[1, 2, 9]`, and
`EmplaceBack` and `Emplace(end(), 9)` both return position 2; but the claim requires
`Emplace(end(), 9)` to give the same elements, and the code gives `[1, 0, 9]`: with spare
capacity it move-constructs the trailing slot from the last element, which is left
moved-from. -/
theorem C20_emplace_at_end_differs_from_push_back :
    Vector.Holds (Vector.ofList 3 [1, 2]) [1, 2] ∧
    (Vector.PushBack handleTraits none (Vector.ofList 3 [1, 2]) 9).self.elems
      = [some 1, some 2, some 9] ∧
    (Vector.EmplaceBack handleTraits none (Vector.ofList 3 [1, 2]) 9).self.elems
      = [some 1, some 2, some 9] ∧
    (Vector.EmplaceBack handleTraits none (Vector.ofList 3 [1, 2]) 9).ret = some 2 ∧
    (Vector.Emplace handleTraits none (Vector.ofList 3 [1, 2])
      (Vector.ofList 3 [1, 2]).size_ 9).ret = some 2 ∧
    (Vector.Emplace handleTraits none (Vector.ofList 3 [1, 2])
      (Vector.ofList 3 [1, 2]).size_ 9).self.elems = [some 1, some 0, some 9] ∧
    (Vector.Emplace handleTraits none (Vector.ofList 3 [1, 2])
      (Vector.ofList 3 [1, 2]).size_ 9).self.elems
      ≠ (Vector.PushBack handleTraits none (Vector.ofList 3 [1, 2]) 9).self.elems := by
  refine ⟨⟨⟨by decide, by decide⟩, by decide, by decide⟩, by decide, by decide, by decide,
    by decide, by decide, by decide⟩

/-! ## The invariant `size ≤ capacity` and the growth of the capacity, whatever fails -/

theorem Reserve_facts {α : Type} (t : ElemTraits α) (fail : Option Nat) (v : Vector α)
    (n : Nat) :
    (Vector.Reserve t fail v n).self.size_ = v.size_ ∧
    v.Capacity ≤ (Vector.Reserve t fail v n).self.Capacity ∧
    ((Vector.Reserve t fail v n).ret = some () → n ≤ (Vector.Reserve t fail v n).self.Capacity) := by
  unfold Vector.Reserve
  by_cases h : n ≤ v.data_.capacity_
  · rw [if_pos h]
    exact ⟨rfl, Nat.le_refl _, fun _ => h⟩
  · rw [if_neg h]
    cases hr : Vector.relocate_n t fail v.size_ v.data_.buffer_
      (RawMemory.ofCapacity n : RawMemory α).buffer_ with
    | error nb =>
      simp only [hr]
      exact ⟨by trivial, Nat.le_refl _, fun hc => Option.noConfusion hc⟩
    | ok p =>
      simp only [hr, Vector.Capacity]
      exact ⟨by trivial, by omega, fun _ => Nat.le_refl _⟩

theorem Resize_facts {α : Type} (t : ElemTraits α) (fail : Option Nat) (v : Vector α)
    (n : Nat) (h : v.size_ ≤ v.Capacity) :
    (Vector.Resize t fail v n).self.size_ ≤ (Vector.Resize t fail v n).self.Capacity ∧
    v.Capacity ≤ (Vector.Resize t fail v n).self.Capacity := by
  obtain ⟨h1, h2, h3⟩ := Reserve_facts t fail v n
  unfold Vector.Capacity at h h2 h3 ⊢
  unfold Vector.Resize
  by_cases h0 : n = v.size_
  · rw [if_pos h0]
    exact ⟨h, Nat.le_refl _⟩
  · rw [if_neg h0]
    by_cases hg : n > v.size_
    · rw [if_pos hg]
      cases hret : (Vector.Reserve t fail v n).ret with
      | none =>
        simp only [hret]
        exact ⟨by omega, h2⟩
      | some u =>
        simp only [hret]
        exact ⟨h3 hret, h2⟩
    · rw [if_neg hg]
      exact ⟨by dsimp only; omega, Nat.le_refl _⟩

theorem PushBack_facts {α : Type} (t : ElemTraits α) (fail : Option Nat) (v : Vector α)
    (x : α) (h : v.size_ ≤ v.Capacity) :
    (Vector.PushBack t fail v x).self.size_ ≤ (Vector.PushBack t fail v x).self.Capacity ∧
    v.Capacity ≤ (Vector.PushBack t fail v x).self.Capacity := by
  unfold Vector.PushBack
  by_cases hc : v.size_ = v.Capacity
  · rw [if_pos hc]
    have hN : v.size_ < (if v.size_ = 0 then 1 else v.size_ * 2) := by
      by_cases h0 : v.size_ = 0
      · rw [if_pos h0]; omega
      · rw [if_neg h0]; omega
    cases hr : Vector.relocate_n t fail v.size_ v.data_.buffer_
      (construct_at (RawMemory.ofCapacity (if v.size_ = 0 then 1 else v.size_ * 2) :
        RawMemory α).buffer_ v.size_ x) with
    | error nb =>
      simp only [hr]
      exact ⟨h, Nat.le_refl _⟩
    | ok p =>
      simp only [hr, Vector.Capacity]
      unfold Vector.Capacity at hc
      exact ⟨by omega, by omega⟩
  · rw [if_neg hc]
    unfold Vector.Capacity at h hc ⊢
    exact ⟨by dsimp only; omega, Nat.le_refl _⟩

theorem EmplaceBack_facts {α : Type} (t : ElemTraits α) (fail : Option Nat) (v : Vector α)
    (x : α) (h : v.size_ ≤ v.Capacity) :
    (Vector.EmplaceBack t fail v x).self.size_ ≤ (Vector.EmplaceBack t fail v x).self.Capacity ∧
    v.Capacity ≤ (Vector.EmplaceBack t fail v x).self.Capacity := by
  rw [← PushBack_eq_EmplaceBack]
  exact PushBack_facts t fail v x h

theorem Emplace_facts {α : Type} (t : ElemTraits α) (fail : Option Nat) (v : Vector α)
    (i : Nat) (x : α) (h : v.size_ ≤ v.Capacity) :
    (Vector.Emplace t fail v i x).self.size_ ≤ (Vector.Emplace t fail v i x).self.Capacity ∧
    v.Capacity ≤ (Vector.Emplace t fail v i x).self.Capacity := by
  unfold Vector.Emplace
  by_cases hc : v.size_ < v.Capacity
  · rw [if_pos hc]
    unfold Vector.Capacity at h hc ⊢
    by_cases h0 : v.size_ = 0
    · rw [if_pos h0]
      exact ⟨by dsimp only; omega, Nat.le_refl _⟩
    · rw [if_neg h0]
      exact ⟨by dsimp only; omega, Nat.le_refl _⟩
  · rw [if_neg hc]
    have hN : v.size_ < (if v.size_ = 0 then 1 else v.size_ * 2) := by
      by_cases h0 : v.size_ = 0
      · rw [if_pos h0]; omega
      · rw [if_neg h0]; omega
    unfold Vector.Capacity at h hc ⊢
    cases ht : t.relocByMove with
    | true =>
      simp only [if_true]
      exact ⟨by omega, by omega⟩
    | false =>
      simp only [Bool.false_eq_true, if_false]
      cases h1 : uninitialized_copy_n fail i 0 0 v.data_.buffer_
        (construct_at (RawMemory.ofCapacity (if v.size_ = 0 then 1 else v.size_ * 2) :
          RawMemory α).buffer_ i x) with
      | error nb =>
        simp only [h1]
        exact ⟨h, Nat.le_refl _⟩
      | ok nb =>
        simp only [h1]
        cases h2 : uninitialized_copy_n (Option.map (fun x => x - i) fail) (v.size_ - i) i
          (i + 1) v.data_.buffer_ nb with
        | error nb2 =>
          simp only [h2]
          exact ⟨h, Nat.le_refl _⟩
        | ok nb2 =>
          simp only [h2]
          exact ⟨by omega, by omega⟩

theorem Erase_facts {α : Type} (t : ElemTraits α) (v : Vector α) (i : Nat)
    (h : v.size_ ≤ v.Capacity) :
    (Vector.Erase t v i).2.size_ ≤ (Vector.Erase t v i).2.Capacity ∧
    (Vector.Erase t v i).2.Capacity = v.Capacity := by
  unfold Vector.Erase
  unfold Vector.Capacity at h ⊢
  by_cases h0 : v.size_ = 0
  · rw [if_pos h0]
    exact ⟨h, rfl⟩
  · rw [if_neg h0]
    by_cases h1 : v.size_ = 1
    · rw [if_pos h1]
      exact ⟨by dsimp only; omega, rfl⟩
    · rw [if_neg h1]
      exact ⟨by dsimp only; omega, rfl⟩

theorem copyAssign_facts {α : Type} (self rhs : Vector α) :
    (Vector.copyAssign self rhs).size_ = rhs.size_ ∧
    (Vector.copyAssign self rhs).size_ ≤ (Vector.copyAssign self rhs).Capacity ∧
    (rhs.size_ ≤ self.Capacity → (Vector.copyAssign self rhs).Capacity = self.Capacity) ∧
    (self.Capacity < rhs.size_ → (Vector.copyAssign self rhs).Capacity = rhs.size_) := by
  unfold Vector.copyAssign
  unfold Vector.Capacity
  by_cases hc : rhs.size_ > self.data_.capacity_
  · rw [if_pos hc]
    exact ⟨rfl, Nat.le_refl _, fun hle => absurd hle (by omega), fun _ => rfl⟩
  · rw [if_neg hc]
    exact ⟨rfl, by dsimp only; omega, fun _ => rfl, fun hlt => absurd hlt (by omega)⟩

/-- C13: the predicate `size ≤ capacity` holds for every constructed array (default, sized,
copy, move, for the new object and for the source it was moved from) and is preserved by
every public operation called within its precondition, whether the operation completes or
a relocation copy throws: `Reserve`, `Resize`, `PushBack`, `EmplaceBack`, `PopBack` (on a
non-empty array), `Emplace` / `Insert` (index at most the size), `Erase`, copy assignment,
move assignment and `Swap`. -/
theorem C13_size_le_capacity_invariant {α : Type} (t : ElemTraits α) (v w : Vector α)
    (hv : v.size_ ≤ v.Capacity) (hw : w.size_ ≤ w.Capacity) :
    (Vector.empty : Vector α).size_ ≤ (Vector.empty : Vector α).Capacity ∧
    (∀ n, (Vector.sized t n).size_ ≤ (Vector.sized t n).Capacity) ∧
    (Vector.copyCtor v).size_ ≤ (Vector.copyCtor v).Capacity ∧
    (Vector.moveCtor v).1.size_ ≤ (Vector.moveCtor v).1.Capacity ∧
    (Vector.moveCtor v).2.size_ ≤ (Vector.moveCtor v).2.Capacity ∧
    (∀ fail n, (Vector.Reserve t fail v n).self.size_ ≤ (Vector.Reserve t fail v n).self.Capacity) ∧
    (∀ fail n, (Vector.Resize t fail v n).self.size_ ≤ (Vector.Resize t fail v n).self.Capacity) ∧
    (∀ fail x,
      (Vector.PushBack t fail v x).self.size_ ≤ (Vector.PushBack t fail v x).self.Capacity) ∧
    (∀ fail x,
      (Vector.EmplaceBack t fail v x).self.size_
        ≤ (Vector.EmplaceBack t fail v x).self.Capacity) ∧
    (0 < v.size_ → (Vector.PopBack v).size_ ≤ (Vector.PopBack v).Capacity) ∧
    (∀ fail i x, i ≤ v.size_ →
      (Vector.Emplace t fail v i x).self.size_ ≤ (Vector.Emplace t fail v i x).self.Capacity ∧
      (Vector.Insert t fail v i x).self.size_ ≤ (Vector.Insert t fail v i x).self.Capacity) ∧
    (∀ i, i < v.size_ ∨ v.size_ = 0 →
      (Vector.Erase t v i).2.size_ ≤ (Vector.Erase t v i).2.Capacity) ∧
    (Vector.copyAssign v w).size_ ≤ (Vector.copyAssign v w).Capacity ∧
    ((Vector.moveAssign v w).1.size_ ≤ (Vector.moveAssign v w).1.Capacity ∧
      (Vector.moveAssign v w).2.size_ ≤ (Vector.moveAssign v w).2.Capacity) ∧
    ((Vector.Swap v w).1.size_ ≤ (Vector.Swap v w).1.Capacity ∧
      (Vector.Swap v w).2.size_ ≤ (Vector.Swap v w).2.Capacity) := by
  refine ⟨Nat.le_refl _, fun n => Nat.le_refl _, Nat.le_refl _, hv, Nat.zero_le _,
    fun fail n => ?_, fun fail n => (Resize_facts t fail v n hv).1,
    fun fail x => (PushBack_facts t fail v x hv).1,
    fun fail x => (EmplaceBack_facts t fail v x hv).1, fun _ => ?_,
    fun fail i x _ => ⟨(Emplace_facts t fail v i x hv).1, (Emplace_facts t fail v i x hv).1⟩,
    fun i _ => (Erase_facts t v i hv).1, (copyAssign_facts v w).2.1, ⟨hw, hv⟩, ⟨hw, hv⟩⟩
  · obtain ⟨h1, h2, -⟩ := Reserve_facts t fail v n
    rw [h1]
    exact Nat.le_trans hv h2
  · exact Nat.le_trans (Nat.sub_le _ _) hv

/-- Witness for C13: `v = [1]` with capacity 2 and `w = [7, 8]`. -/
theorem C13_size_le_capacity_invariant_witness :
    (Vector.ofList 2 [1]).size_ ≤ (Vector.ofList 2 [1]).Capacity ∧
    (Vector.ofList 2 [7, 8]).size_ ≤ (Vector.ofList 2 [7, 8]).Capacity ∧
    (Vector.PushBack intTraits none (Vector.ofList 2 [1]) 5).self.size_
      ≤ (Vector.PushBack intTraits none (Vector.ofList 2 [1]) 5).self.Capacity ∧
    (Vector.copyAssign (Vector.ofList 2 [1]) (Vector.ofList 2 [7, 8])).size_
      ≤ (Vector.copyAssign (Vector.ofList 2 [1]) (Vector.ofList 2 [7, 8])).Capacity :=
  have h := C13_size_le_capacity_invariant intTraits (Vector.ofList 2 [1])
    (Vector.ofList 2 [7, 8]) (by decide) (by decide)
  ⟨by decide, by decide, h.2.2.2.2.2.2.2.1 none 5, h.2.2.2.2.2.2.2.2.2.2.2.2.1⟩

/-- C14: the capacity never shrinks on its own: for every array state with
`size ≤ capacity` and every one of `PushBack`, `EmplaceBack`, `PopBack` (non-empty array),
`Insert`, `Emplace` (index at most the size), `Erase`, `Resize` and `Reserve`, the capacity
after the operation is at least the capacity before it, whether the operation completes or
a relocation copy throws. -/
theorem C14_capacity_never_shrinks {α : Type} (t : ElemTraits α) (v : Vector α)
    (hv : v.size_ ≤ v.Capacity) :
    (∀ fail x, v.Capacity ≤ (Vector.PushBack t fail v x).self.Capacity) ∧
    (∀ fail x, v.Capacity ≤ (Vector.EmplaceBack t fail v x).self.Capacity) ∧
    (0 < v.size_ → v.Capacity ≤ (Vector.PopBack v).Capacity) ∧
    (∀ fail i x, i ≤ v.size_ →
      v.Capacity ≤ (Vector.Insert t fail v i x).self.Capacity ∧
      v.Capacity ≤ (Vector.Emplace t fail v i x).self.Capacity) ∧
    (∀ i, i < v.size_ ∨ v.size_ = 0 → v.Capacity ≤ (Vector.Erase t v i).2.Capacity) ∧
    (∀ fail n, v.Capacity ≤ (Vector.Resize t fail v n).self.Capacity) ∧
    (∀ fail n, v.Capacity ≤ (Vector.Reserve t fail v n).self.Capacity) :=
  ⟨fun fail x => (PushBack_facts t fail v x hv).2,
    fun fail x => (EmplaceBack_facts t fail v x hv).2,
    fun _ => Nat.le_refl _,
    fun fail i x _ => ⟨(Emplace_facts t fail v i x hv).2, (Emplace_facts t fail v i x hv).2⟩,
    fun i _ => Nat.le_of_eq (Erase_facts t v i hv).2.symm,
    fun fail n => (Resize_facts t fail v n hv).2,
    fun fail n => (Reserve_facts t fail v n).2.1⟩

/-- Witness for C14: the full array `[1, 2]` with capacity 2. -/
theorem C14_capacity_never_shrinks_witness :
    (Vector.ofList 2 [1, 2]).size_ ≤ (Vector.ofList 2 [1, 2]).Capacity ∧
    (Vector.ofList 2 [1, 2]).Capacity
      ≤ (Vector.PushBack intTraits none (Vector.ofList 2 [1, 2]) 3).self.Capacity ∧
    (Vector.ofList 2 [1, 2]).Capacity
      ≤ (Vector.Erase intTraits (Vector.ofList 2 [1, 2]) 0).2.Capacity ∧
    (Vector.ofList 2 [1, 2]).Capacity
      ≤ (Vector.Resize intTraits none (Vector.ofList 2 [1, 2]) 1).self.Capacity :=
  have h := C14_capacity_never_shrinks intTraits (Vector.ofList 2 [1, 2]) (by decide)
  ⟨by decide, h.1 none 3, h.2.2.2.2.1 0 (Or.inl (by decide)), h.2.2.2.2.2.1 none 1⟩

/-! ## Copy assignment: size, capacity and the copy-and-swap branch -/

theorem copyCtor_elems {α : Type} (other : Vector α) (h : Vector.Inv other) :
    (Vector.copyCtor other).elems = other.elems := by
  obtain ⟨hlen, hle⟩ := h
  unfold Vector.copyCtor Vector.elems
  obtain ⟨r, hr, hl, hj⟩ := uninitialized_copy_n_none other.size_ 0 0 other.data_.buffer_
    (RawMemory.ofCapacity other.size_ : RawMemory α).buffer_
  simp only [hr, blockOf]
  simp only [RawMemory.ofCapacity, RawMemory.Allocate, List.length_replicate] at hl hj
  refine List.ext_getElem? fun j => ?_
  simp only [List.getElem?_take]
  by_cases h1 : j < other.size_
  · have h2 : 0 ≤ j ∧ j < 0 + other.size_ ∧ j < other.size_ := by omega
    have e : 0 + (j - 0) = j := by omega
    rw [if_pos h1, if_pos h1, hj, if_pos h2, e, some_rd _ _ (by omega)]
  · rw [if_neg h1, if_neg h1]

/-- C18: for every pair of distinct arrays, copy assignment `self = other` (which only reads
`other`, passed by const reference) always leaves `self.size == other.size`; when
`other.size ≤ self.capacity` the capacity of `self` is unchanged; when
`other.size > self.capacity` the copy-and-swap branch runs and afterwards
`self.capacity == other.size` and `self` holds exactly the elements of `other`, in order. -/
theorem C18_copy_assign_size_and_capacity {α : Type} (self other : Vector α)
    (ho : Vector.Inv other) :
    (Vector.copyAssign self other).size_ = other.size_ ∧
    (other.size_ ≤ self.Capacity →
      (Vector.copyAssign self other).Capacity = self.Capacity) ∧
    (self.Capacity < other.size_ →
      Vector.copyAssign self other = (Vector.Swap self (Vector.copyCtor other)).1 ∧
      (Vector.copyAssign self other).Capacity = other.size_ ∧
      (Vector.copyAssign self other).elems = other.elems) := by
  obtain ⟨h1, -, h3, h4⟩ := copyAssign_facts self other
  refine ⟨h1, h3, fun hlt => ?_⟩
  have hb : Vector.copyAssign self other = (Vector.Swap self (Vector.copyCtor other)).1 := by
    unfold Vector.copyAssign
    rw [if_pos (show other.size_ > self.data_.capacity_ from hlt)]
  refine ⟨hb, h4 hlt, ?_⟩
  rw [hb]
  exact copyCtor_elems other ho

/-- Witness for C18: `self = [1]` with capacity 1 and `other = [7, 8]`. -/
theorem C18_copy_assign_size_and_capacity_witness :
    Vector.Inv (Vector.ofList 2 [7, 8]) ∧
    (Vector.ofList 1 [1]).Capacity < (Vector.ofList 2 [7, 8]).size_ ∧
    (Vector.copyAssign (Vector.ofList 1 [1]) (Vector.ofList 2 [7, 8])).Capacity = 2 ∧
    (Vector.copyAssign (Vector.ofList 1 [1]) (Vector.ofList 2 [7, 8])).elems
      = [some 7, some 8] :=
  have ho : Vector.Inv (Vector.ofList 2 [7, 8]) := ⟨by decide, by decide⟩
  have h := (C18_copy_assign_size_and_capacity (Vector.ofList 1 [1]) (Vector.ofList 2 [7, 8])
    ho).2.2 (by decide)
  ⟨ho, by decide, h.2.1, h.2.2⟩

/-! ## Debug bounds assertions -/

/-- C19: under the invariant `size ≤ capacity` and the caller preconditions (`index < size`
for `operator[]`, `index ≤ size` for `Emplace` / `Insert`, `index < size` for `Erase`),
every debug bounds assertion `index < capacity_` reached inside the container holds: in
`Vector::operator[]`, in the assignment loops of copy assignment (on the block of `rhs`),
and in the return statements of `Emplace` (growth branch, on the block swapped in) and of
`Erase`. -/
theorem C19_bounds_assertions_hold {α : Type} (t : ElemTraits α) (v rhs : Vector α)
    (index : Nat) (value : α) (hv : v.size_ ≤ v.Capacity) (hr : rhs.size_ ≤ rhs.Capacity) :
    (index < v.size_ → ∀ p ∈ Vector.at_accesses v index, p.1 < p.2) ∧
    (∀ p ∈ Vector.copyAssign_accesses v rhs, p.1 < p.2) ∧
    (index ≤ v.size_ → ∀ p ∈ Vector.Emplace_accesses t v index value, p.1 < p.2) ∧
    (index < v.size_ → ∀ p ∈ Vector.Erase_accesses t v index, p.1 < p.2) := by
  unfold Vector.Capacity at hv hr
  refine ⟨fun hi p hp => ?_, fun p hp => ?_, fun hi p hp => ?_, fun hi p hp => ?_⟩
  · simp only [Vector.at_accesses, List.mem_singleton] at hp
    subst hp
    dsimp only
    omega
  · unfold Vector.copyAssign_accesses at hp
    split_ifs at hp with h1 h2
    · exact absurd hp (List.not_mem_nil _)
    · simp only [List.mem_map, List.mem_range] at hp
      obtain ⟨i, hi, rfl⟩ := hp
      dsimp only
      omega
    · simp only [List.mem_map, List.mem_range] at hp
      obtain ⟨i, hi, rfl⟩ := hp
      dsimp only
      omega
  · unfold Vector.Emplace_accesses at hp
    split_ifs at hp with h1
    · exact absurd hp (List.not_mem_nil _)
    · simp only [List.mem_singleton] at hp
      subst hp
      have hcap := (Emplace_capacity t v index value).2
      rw [if_neg h1] at hcap
      unfold Vector.Capacity at hcap
      dsimp only
      rw [hcap]
      omega
  · unfold Vector.Erase_accesses at hp
    split_ifs at hp with h1 h2
    · exact absurd hp (List.not_mem_nil _)
    · exact absurd hp (List.not_mem_nil _)
    · simp only [List.mem_singleton] at hp
      subst hp
      have hcap := (Erase_facts t v index hv).2
      unfold Vector.Capacity at hcap
      dsimp only
      rw [hcap]
      omega

/-- Witness for C19: the full array `[1, 2]` (capacity 2), index 1, and `rhs = [7, 8]`:
the growth branch of `Emplace` indexes the new block of capacity 4 at 1. -/
theorem C19_bounds_assertions_hold_witness :
    (Vector.ofList 2 [1, 2]).size_ ≤ (Vector.ofList 2 [1, 2]).Capacity ∧
    (Vector.ofList 2 [7, 8]).size_ ≤ (Vector.ofList 2 [7, 8]).Capacity ∧
    Vector.Emplace_accesses intTraits (Vector.ofList 2 [1, 2]) 1 9 = [(1, 4)] ∧
    (∀ p ∈ Vector.Emplace_accesses intTraits (Vector.ofList 2 [1, 2]) 1 9, p.1 < p.2) ∧
    (∀ p ∈ Vector.Erase_accesses intTraits (Vector.ofList 2 [1, 2]) 1, p.1 < p.2) :=
  have h := C19_bounds_assertions_hold intTraits (Vector.ofList 2 [1, 2])
    (Vector.ofList 2 [7, 8]) 1 9 (by decide) (by decide)
  ⟨by decide, by decide, by decide, h.2.2.1 (by decide), h.2.2.2 (by decide)⟩

/-! ## Positional insert with spare capacity when a move assignment throws -/

theorem move_backward_sched_none {α : Type} (t : ElemTraits α) (n last d_last : Nat)
    (b : Block α) :
    move_backward_sched t none n last d_last b = .ok (move_backward t n last d_last b) := by
  induction n generalizing last d_last b with
  | zero => simp [move_backward_sched, move_backward]
  | succ n ih => simp [move_backward_sched, move_backward, ih]

/-- Without a throwing move assignment, `EmplaceSpare` is the spare-capacity branch of
`Emplace`. -/
theorem EmplaceSpare_none {α : Type} (t : ElemTraits α) (fail : Option Nat) (v : Vector α)
    (i : Nat) (x : α) (hc : v.size_ < v.Capacity) :
    Vector.Emplace t fail v i x = Vector.EmplaceSpare t none v i x := by
  unfold Vector.Emplace Vector.EmplaceSpare
  rw [if_pos hc]
  by_cases h0 : v.size_ = 0
  · rw [if_pos h0, if_pos h0]
  · rw [if_neg h0, if_neg h0]
    simp only [move_backward_sched_none]

theorem move_backward_sched_fails {α : Type} (t : ElemTraits α) (k n last d_last : Nat)
    (b : Block α) (hk : k < n) (hd : last ≤ d_last) :
    ∃ r, move_backward_sched t (some k) n last d_last b = .error r ∧
      r.length = b.length ∧ ∀ j, j < last - n → r[j]? = b[j]? := by
  induction n generalizing k last d_last b with
  | zero => omega
  | succ n ih =>
    cases k with
    | zero => exact ⟨b, by simp [move_backward_sched], rfl, fun _ _ => rfl⟩
    | succ k =>
      obtain ⟨r, hr, hl, hj⟩ := ih k (last - 1) (d_last - 1)
        (move_assign t b (last - 1) (d_last - 1)) (by omega) (by omega)
      refine ⟨r, by simp [move_backward_sched, hr], by simpa using hl, fun j hjl => ?_⟩
      rw [hj j (by omega)]
      simp only [move_assign, List.getElem?_set]
      rw [if_neg (by omega), if_neg (by omega)]

/-- The three ways to append give the same size, capacity and elements (the original ones
followed by the new value) whenever the append forces growth, and also with spare capacity
when a move of the element type leaves the value of its source unchanged. -/
theorem append_agree_of_growth_or_plain_move {α : Type} (t : ElemTraits α) (v : Vector α)
    (xs : List α) (x : α) (h : Vector.Holds v xs)
    (hm : v.size_ = v.Capacity ∨ ∀ a, t.moved a = a) :
    Vector.Holds (Vector.PushBack t none v x).self (xs ++ [x]) ∧
    Vector.Holds (Vector.EmplaceBack t none v x).self (xs ++ [x]) ∧
    Vector.Holds (Vector.Emplace t none v v.size_ x).self (xs ++ [x]) ∧
    (Vector.EmplaceBack t none v x).self.Capacity = (Vector.PushBack t none v x).self.Capacity ∧
    (Vector.Emplace t none v v.size_ x).self.Capacity
      = (Vector.PushBack t none v x).self.Capacity ∧
    (Vector.EmplaceBack t none v x).ret = some v.size_ ∧
    (Vector.Emplace t none v v.size_ x).ret = some v.size_ := by
  have hp := PushBack_holds t v xs x h
  obtain ⟨he1, he2, -⟩ := Emplace_holds_of_growth_or_plain_move t v xs v.size_ x h
    (Nat.le_refl _) hm
  have e : xs.take v.size_ ++ [x] ++ xs.drop v.size_ = xs ++ [x] := by
    rw [h.2.1, List.take_length, List.drop_length, List.append_nil]
  rw [e] at he2
  have hc1 := (PushBack_capacity t v x).2.2
  have hc2 := (Emplace_capacity t v v.size_ x).2
  refine ⟨hp, by rw [← PushBack_eq_EmplaceBack]; exact hp, he2,
    by rw [← PushBack_eq_EmplaceBack], ?_, (EmplaceBack_capacity t v x).1, he1⟩
  rw [hc1, hc2]
  have hle : v.size_ ≤ v.Capacity := h.1.2
  by_cases hc : v.size_ = v.Capacity
  · rw [if_pos hc, if_neg (by omega), hc]
  · rw [if_neg hc, if_pos (by omega)]


end AdvancedVector
